import Mathlib

/-
Verification development for the proto-file merge engine implemented in
scripts/sync_proto.py.  The Python functions parse_proto_file,
transform_import_path, filter_excluded_definitions,
remove_options_from_rpc_blocks, cleanup_empty_rpc_blocks and
merge_proto_files are shallowly embedded as executable Lean functions over
lists of lines (String values carrying List Char data).  Python strings are
modelled as Lean String; str.split('\n') is modelled by splitLines,
'\n'.join by joinNL, str.strip / str.rstrip by pyStrip / pyRstrip over the
same whitespace class Python uses.
-/

/-- Whitespace class used by Python str.strip and the regex class \s. -/
def pyIsSpace (c : Char) : Bool :=
  c = ' ' || c = '\t' || c = '\n' || c = '\r' || c = '\x0b' || c = '\x0c'

/-- Strip leading and trailing Python whitespace from a character list. -/
def pyStripL (l : List Char) : List Char :=
  ((l.dropWhile pyIsSpace).reverse.dropWhile pyIsSpace).reverse

/-- Model of Python str.strip(). -/
def pyStrip (s : String) : String := String.mk (pyStripL s.data)

/-- Strip trailing Python whitespace from a character list (str.rstrip()). -/
def pyRstripL (l : List Char) : List Char :=
  (l.reverse.dropWhile pyIsSpace).reverse

/-- Strip trailing opening-brace characters (Python str.rstrip('{')). -/
def rstripBraceL (l : List Char) : List Char :=
  (l.reverse.dropWhile (fun c => c = '\x7b')).reverse

/-- Decide whether the first list is a prefix of the second (Boolean). -/
def isPre : List Char → List Char → Bool
  | [], _ => true
  | _ :: _, [] => false
  | a :: as, b :: bs => a = b && isPre as bs

/-- Decide whether the first list occurs as a contiguous infix of the
second; models the Python substring test (pat in s). -/
def hasSub (p : List Char) : List Char → Bool
  | [] => isPre p []
  | c :: rest => isPre p (c :: rest) || hasSub p rest

/-- Python s.startswith(p). -/
def strStarts (s p : String) : Bool := isPre p.data s.data

/-- Python s.endswith(p). -/
def strEnds (s p : String) : Bool := isPre p.data.reverse s.data.reverse

/-- Python (p in s), substring containment on strings. -/
def strHas (s p : String) : Bool := hasSub p.data s.data

/-- Brace balance of a line: count of '{' minus count of '}' as an integer,
mirroring stripped.count('{') - stripped.count('}'). -/
def braceBal (s : String) : Int :=
  (s.data.count '\x7b' : Int) - (s.data.count '\x7d' : Int)

/-- True when a line strips to the empty string (Python: not line.strip()). -/
def blankLine (s : String) : Bool := (pyStripL s.data).isEmpty

/-- Model of Python content.split('\n') on character lists: split at every
newline, producing one more part than there are newlines. -/
def splitLines : List Char → List (List Char)
  | [] => [[]]
  | c :: rest =>
    let r := splitLines rest
    if c = '\n' then [] :: r
    else
      match r with
      | [] => [[c]]
      | h :: t => (c :: h) :: t

/-- Model of Python '\n'.join on character lists. -/
def joinNL : List (List Char) → List Char
  | [] => []
  | [l] => l
  | l :: r :: t => l ++ '\n' :: joinNL (r :: t)

/-- Lexicographic comparison of character lists by code point, the order
Python uses to compare strings. -/
def listLe : List Char → List Char → Bool
  | [], _ => true
  | _ :: _, [] => false
  | a :: as, b :: bs => if a = b then listLe as bs else decide (a.toNat < b.toNat)

/-- Python string comparison x <= y. -/
def strLe (x y : String) : Bool := listLe x.data y.data

/-- Configured line-prefix skip patterns (SKIP_PATTERNS['line_prefixes']). -/
def skipLineStarts : List String := ["option go_package"]

/-- Configured substring skip patterns (SKIP_PATTERNS['line_contains']). -/
def skipLineHas : List String :=
  ["option (grpc.gateway.protoc_gen_openapiv2.options.openapiv2_swagger)"]

/-- Configured option-block markers (SKIP_PATTERNS['option_blocks']). -/
def optionBlocks : List String := ["option (google.api.http)"]

/-- Configured import skip substrings (SKIP_PATTERNS['import_contains']). -/
def importSkipHas : List String :=
  ["google/api/annotations.proto", "protoc-gen-openapiv2/options/annotations.proto"]

/-- Scan state and result record of parse_proto_file: the Boolean flags,
the running option-block brace depth, the previous raw line (used by the
block-comment continuation test), and the collected document sections. -/
structure PSt where
  licenseDone : Bool
  syntaxDone : Bool
  packageDone : Bool
  inHttp : Bool
  depth : Int
  prev : Option String
  license : List String
  syntaxLine : Option String
  javaPackage : Option String
  packageLine : Option String
  imports : List String
  body : List String
deriving Repr, DecidableEq

/-- Initial scan state of parse_proto_file. -/
def initPSt : PSt :=
  { licenseDone := false, syntaxDone := false, packageDone := false,
    inHttp := false, depth := 0, prev := none, license := [],
    syntaxLine := none, javaPackage := none, packageLine := none,
    imports := [], body := [] }

/-- Portion of the parse_proto_file loop body that runs after the skip
checks for line prefixes and line_contains: option-block tracking, package
capture, import capture and body capture, in source order. -/
def parseStepTail (st : PSt) (line stripped : String) : PSt :=
  let marker := st.syntaxDone && optionBlocks.any (fun p => strHas stripped p)
  let d1 : Int := if marker then braceBal stripped else st.depth
  let o1 : Bool := if marker && braceBal stripped > 0 then true else st.inHttp
  if st.syntaxDone && o1 then
    let d2 := d1 + braceBal stripped
    { st with depth := d2, inHttp := if d2 ≤ 0 then false else o1 }
  else
    let stA := { st with depth := d1, inHttp := o1 }
    if !stA.packageDone && strStarts stripped "package " then
      { stA with packageLine := some line, packageDone := true }
    else if strStarts stripped "import " then
      if importSkipHas.any (fun p => strHas line p) then stA
      else { stA with imports := stA.imports ++ [line] }
    else if stA.syntaxDone && stA.packageDone && !stA.inHttp then
      { stA with body := stA.body ++ [line] }
    else stA

/-- Portion of the parse_proto_file loop body that runs once the license
state has been resolved for the current line. -/
def parseStepMain (st : PSt) (line stripped : String) : PSt :=
  if st.licenseDone && !st.syntaxDone && stripped = "" then st
  else if !st.syntaxDone && strStarts stripped "syntax =" then
    { st with syntaxLine := some line, syntaxDone := true }
  else if strStarts stripped "option java_package" then
    (match st.javaPackage with
     | none => { st with javaPackage := some line }
     | some _ => st)
  else if skipLineStarts.any (fun p => strStarts stripped p) then st
  else if skipLineHas.any (fun p => strHas stripped p) then st
  else parseStepTail st line stripped

/-- One iteration of the parse_proto_file loop over a raw line; the
previous raw line is recorded at the end of every iteration. -/
def parseStep (st : PSt) (line : String) : PSt :=
  let stripped := pyStrip line
  let core :=
    if !st.licenseDone then
      let isComment := strStarts stripped "//" || strStarts stripped "/*" ||
        (strStarts stripped "*" &&
          (match st.prev with | some p => strHas p "/*" | none => false))
      if isComment then { st with license := st.license ++ [line] }
      else if stripped = "" then { st with licenseDone := true }
      else parseStepMain { st with licenseDone := true } line stripped
    else parseStepMain st line stripped
  { core with prev := some line }

/-- Scan a list of raw lines with the parse_proto_file loop. -/
def parseLines (ls : List String) : PSt := ls.foldl parseStep initPSt

/-- Embedding of parse_proto_file: split the document at newlines and scan.
The Python function returns a dict with keys license, syntax, java_package,
package, imports, body; these are the corresponding fields of PSt. -/
def parse_proto_file (content : String) : PSt :=
  parseLines ((splitLines content.data).map (fun l => String.mk l))

/-- Greedy tail of the pattern [^"]+\.proto: given the maximal run R of
non-quote characters, the regex engine backtracks from the longest
candidate, so the match ends at the largest k with 7 <= k <= R.length such
that the k-prefix of R ends in ".proto".  Returns that k. -/
def lastProtoEnd (r : List Char) : Option Nat :=
  (List.range (r.length + 1)).foldl
    (fun acc k =>
      if 7 ≤ k && isPre ".proto".data.reverse (r.take k).reverse then some k else acc)
    none

/-- Match of the regex banyandb/([^/]+)/v1/[^"]+\.proto at the head of the
character list: on success, returns the captured module-name run and the
characters remaining after the whole match. -/
def matchAt (l : List Char) : Option (List Char × List Char) :=
  if isPre "banyandb/".data l then
    let l1 := l.drop 9
    let md := l1.takeWhile (fun c => c ≠ '/')
    if md.isEmpty then none
    else
      let r1 := l1.drop md.length
      if isPre "/v1/".data r1 then
        let l2 := r1.drop 4
        let r := l2.takeWhile (fun c => c ≠ '\"')
        match lastProtoEnd r with
        | some k => some (md, l2.drop k)
        | none => none
      else none
  else none

/-- Replacement text substituted for each regex match:
banyandb/v1/banyandb-{module}.proto. -/
def replText (md : List Char) : List Char :=
  "banyandb/v1/banyandb-".data ++ md ++ ".proto".data

/-- Length bound of the Boolean prefix test. -/
theorem isPre_length (p : List Char) : ∀ l, isPre p l = true → p.length ≤ l.length := by
  induction p with
  | nil => intro l _; simp
  | cons a as ih =>
    intro l h
    cases l with
    | nil => simp [isPre] at h
    | cons b bs =>
      simp only [isPre, Bool.and_eq_true] at h
      have := ih bs h.2
      simp only [List.length_cons]
      omega

/-- Bound used for the termination of the left-to-right substitution scan:
a successful match consumes at least the literal head of the pattern. -/
theorem matchAt_rem_lt (l : List Char) (md rem : List Char)
    (h : matchAt l = some (md, rem)) : rem.length < l.length := by
  have h9 : isPre "banyandb/".data l = true := by
    by_contra hc
    simp only [Bool.not_eq_true] at hc
    unfold matchAt at h
    simp [hc] at h
  have hlen9 : 9 ≤ l.length := by
    have := isPre_length "banyandb/".data l h9
    simpa using this
  unfold matchAt at h
  simp only [h9, if_true] at h
  split at h
  · simp at h
  · split at h
    · split at h
      next k hk =>
        simp only [Option.some.injEq, Prod.mk.injEq] at h
        have hrem := h.2
        have : rem.length ≤ l.length - 9 := by
          rw [← hrem]
          simp only [List.length_drop]
          omega
        omega
      next hk => simp at h
    · simp at h

/-- Left-to-right scan performing the regex substitution of re.sub,
written with an explicit step budget so that it computes by structural
recursion: at each position, replace a match and continue after it,
otherwise keep the character and move on.  A successful match always
consumes at least one character (matchAt_rem_lt), so a budget of the input
length never runs out; subScanGo_fuel makes this exact. -/
def subScanGo (fuel : Nat) (l : List Char) : List Char :=
  match fuel, l with
  | _, [] => []
  | 0, l => l
  | fuel + 1, c :: rest =>
    match matchAt (c :: rest) with
    | some p => replText p.1 ++ subScanGo fuel p.2
    | none => c :: subScanGo fuel rest

/-- Substitution scan of re.sub over a whole character list. -/
def subScan (l : List Char) : List Char := subScanGo l.length l

/-- Any budget at least the input length yields the same scan result. -/
theorem subScanGo_fuel : ∀ (n : Nat) (fuel : Nat) (l : List Char),
    l.length ≤ n → l.length ≤ fuel → subScanGo fuel l = subScanGo l.length l := by
  intro n
  induction n with
  | zero =>
    intro fuel l h1 _
    have h0 : l = [] := List.eq_nil_of_length_eq_zero (by omega)
    subst h0
    cases fuel <;> rfl
  | succ n ih =>
    intro fuel l h1 h2
    cases l with
    | nil => cases fuel <;> rfl
    | cons c rest =>
      cases fuel with
      | zero => simp at h2
      | succ f =>
        have hlen : (c :: rest).length = rest.length + 1 := rfl
        cases hm : matchAt (c :: rest) with
        | some p =>
          have hlt := matchAt_rem_lt (c :: rest) p.1 p.2 (by rw [hm])
          simp only [List.length_cons] at h1 h2 hlt
          simp only [hlen, subScanGo, hm]
          rw [ih f p.2 (by omega) (by omega), ih rest.length p.2 (by omega) (by omega)]
        | none =>
          simp only [List.length_cons] at h1 h2
          simp only [hlen, subScanGo, hm]
          rw [ih f rest (by omega) (by omega), ih rest.length rest (by omega) (by omega)]

/-- Recursion equation of the substitution scan, budget-free: this is the
loop of re.sub itself. -/
theorem subScan_eq (l : List Char) :
    subScan l =
      (match l with
       | [] => []
       | c :: rest =>
         match matchAt (c :: rest) with
         | some p => replText p.1 ++ subScan p.2
         | none => c :: subScan rest) := by
  cases l with
  | nil => rfl
  | cons c rest =>
    unfold subScan
    cases hm : matchAt (c :: rest) with
    | some p =>
      have hlt := matchAt_rem_lt (c :: rest) p.1 p.2 (by rw [hm])
      simp only [List.length_cons, subScanGo, hm]
      rw [subScanGo_fuel rest.length rest.length p.2 (by simp at hlt; omega)
        (by simp at hlt; omega)]
    | none =>
      simp only [List.length_cons, subScanGo, hm]

def transform_import_path (importLine : String) : String :=
  String.mk (subScan importLine.data)

/-- Word character of the regex class \w, restricted to ASCII as used by
the identifiers these patterns capture. -/
def isWordChar (c : Char) : Bool := c.isAlpha || c.isDigit || c = '_'

/-- Model of re.match(kw + '\\s+(\\w+)', s): the keyword literal, then at
least one whitespace character, then the captured maximal run of at least
one word character. -/
def matchKeywordName (kw : String) (s : String) : Option String :=
  if isPre kw.data s.data then
    let r1 := s.data.drop kw.length
    let sp := r1.takeWhile pyIsSpace
    if sp.isEmpty then none
    else
      let nm := (r1.drop sp.length).takeWhile isWordChar
      if nm.isEmpty then none else some (String.mk nm)
  else none

/-- Loop of filter_excluded_definitions.  The skip state is none when the
scan is copying lines through and some depth while a matched definition is
being discarded with running brace balance depth. -/
def filterGo (exM exR : List String) (sk : Option Int) (l : List String) : List String :=
  match l with
  | [] => []
  | line :: rest =>
    let s := pyStrip line
    match sk with
    | some depth =>
      let d := depth + braceBal s
      if d ≤ 0 then filterGo exM exR none rest else filterGo exM exR (some d) rest
    | none =>
      let rpcCase : List String :=
        if !exR.isEmpty && strStarts s "rpc " then
          match matchKeywordName "rpc" s with
          | some nm =>
            if exR.contains nm then
              if strEnds s ";" then filterGo exM exR none rest
              else if strHas s "\x7b" then filterGo exM exR (some (braceBal s)) rest
              else line :: filterGo exM exR none rest
            else line :: filterGo exM exR none rest
          | none => line :: filterGo exM exR none rest
        else line :: filterGo exM exR none rest
      if !exM.isEmpty && strStarts s "message " then
        match matchKeywordName "message" s with
        | some nm =>
          if exM.contains nm then filterGo exM exR (some (braceBal s)) rest
          else rpcCase
        | none => rpcCase
      else rpcCase

/-- Embedding of filter_excluded_definitions: drop excluded message and
RPC definitions from a body, tracking brace depth while skipping. -/
def filter_excluded_definitions (bodyLines : List String)
    (excludeMessages excludeRpcs : List String) : List String :=
  if bodyLines.isEmpty || (excludeMessages.isEmpty && excludeRpcs.isEmpty) then bodyLines
  else filterGo excludeMessages excludeRpcs none bodyLines

/-- Collapse of an RPC opener line into a one-line declaration:
line.rstrip().rstrip('{').rstrip() + ';'. -/
def collapseRpc (line : String) : String :=
  String.mk (pyRstripL (rstripBraceL (pyRstripL line.data)) ++ [';'])

/-- Test applied by remove_options_from_rpc_blocks and
cleanup_empty_rpc_blocks to recognise an RPC block opener:
'rpc ' in stripped and stripped.endswith('{'). -/
def isRpcOpenLine (line : String) : Bool :=
  strHas (pyStrip line) "rpc " && strEnds (pyStrip line) "\x7b"

/-- Test for a line that starts a new rpc, service or message definition,
used to detect a malformed (unclosed) RPC block. -/
def isDefStart (stripped : String) : Bool :=
  strStarts stripped "rpc " || strStarts stripped "service " || strStarts stripped "message "

/-- Inner scan of remove_options_from_rpc_blocks over the lines following
an RPC opener.  Returns none when the input ends before a closing line
(the while-else of the Python loop, which re-scans from the line after the
opener), and some (emitted lines, resume list) otherwise. -/
def scanBlock (rpcLine : String) (l : List String) (content : List String)
    (optCount : Nat) : Option (List String × List String) :=
  match l with
  | [] => none
  | b :: rest =>
    let s := pyStrip b
    if isDefStart s then some ([collapseRpc rpcLine], b :: rest)
    else if s = "\x7d" then
      let hasContent := content.any (fun c => !(pyStrip c).isEmpty)
      if optCount > 0 || hasContent then
        if hasContent then some (rpcLine :: content ++ [b], rest)
        else some ([collapseRpc rpcLine], rest)
      else some ([collapseRpc rpcLine], b :: rest)
    else if optionBlocks.any (fun p => strHas s p) then
      scanBlock rpcLine rest content (optCount + 1)
    else scanBlock rpcLine rest (content ++ [b]) optCount

/-- Resume list of a successful inner scan never exceeds the scanned tail. -/
theorem scanBlock_rem_le (rpcLine : String) :
    ∀ (l content : List String) (optCount : Nat) (out rem : List String),
      scanBlock rpcLine l content optCount = some (out, rem) → rem.length ≤ l.length := by
  intro l
  induction l with
  | nil => intro content optCount out rem h; simp [scanBlock] at h
  | cons b rest ih =>
    intro content optCount out rem h
    unfold scanBlock at h
    dsimp only at h
    repeat' split at h
    all_goals first
      | (simp only [Option.some.injEq, Prod.mk.injEq] at h
         obtain ⟨h1, h2⟩ := h
         subst h2
         simp only [List.length_cons, List.length_append]
         omega)
      | (have hb := ih content (optCount + 1) out rem h
         simp only [List.length_cons]
         omega)
      | (have hb := ih (content ++ [b]) optCount out rem h
         simp only [List.length_cons]
         omega)

/-- Embedding of remove_options_from_rpc_blocks: strip configured option
statements out of RPC method blocks, collapsing a block with nothing else
inside to a single terminated declaration. -/
def remove_options_from_rpc_blocks (bodyLines : List String) : List String :=
  match bodyLines with
  | [] => []
  | line :: rest =>
    if isRpcOpenLine line then
      match h : scanBlock line rest [] 0 with
      | some p => p.1 ++ remove_options_from_rpc_blocks p.2
      | none => collapseRpc line :: remove_options_from_rpc_blocks rest
    else line :: remove_options_from_rpc_blocks rest
termination_by bodyLines.length
decreasing_by
  · have := scanBlock_rem_le line rest [] 0 p.1 p.2 (by rw [h])
    simp only [List.length_cons]
    omega
  · simp
  · simp

/-- Embedding of cleanup_empty_rpc_blocks: collapse an RPC opener whose
next non-blank line is a bare closing brace into one declaration line. -/
def cleanup_empty_rpc_blocks (bodyLines : List String) : List String :=
  match bodyLines with
  | [] => []
  | line :: rest =>
    if isRpcOpenLine line then
      match h : rest.dropWhile (fun s => blankLine s) with
      | b :: rest2 =>
        if pyStrip b = "\x7d" then collapseRpc line :: cleanup_empty_rpc_blocks rest2
        else line :: cleanup_empty_rpc_blocks rest
      | [] => line :: cleanup_empty_rpc_blocks rest
    else line :: cleanup_empty_rpc_blocks rest
termination_by bodyLines.length
decreasing_by
  · have h1 : (rest.dropWhile (fun s => blankLine s)).length ≤ rest.length :=
      List.Sublist.length_le (List.dropWhile_sublist _)
    rw [h] at h1
    simp only [List.length_cons] at *
    omega
  · simp
  · simp
  · simp

/-- Insertion step of the import set: transform the stripped import line,
drop self-references to the module being merged, and add the result with
set semantics (membership test before insertion). -/
def addImport (currentModule : Option String) (acc : List String) (imp : String) : List String :=
  let t := transform_import_path (pyStrip imp)
  let selfRef :=
    match currentModule with
    | some m => strHas t ("banyandb/v1/banyandb-" ++ m ++ ".proto")
    | none => false
  if selfRef then acc
  else if acc.contains t then acc else acc ++ [t]

/-- Union of the imports of all parsed documents, transformed and with
self-references removed, in first-seen order (the set of merge step 5). -/
def collectImports (parsed : List PSt) (currentModule : Option String) : List String :=
  parsed.foldl (fun acc p => p.imports.foldl (addImport currentModule) acc) []

/-- Sort tier of an import line: 0 for lines containing google/, 1 for
lines containing validate/, 2 otherwise. -/
def importTier (x : String) : Nat :=
  if strHas x "google/" then 0 else if strHas x "validate/" then 1 else 2

/-- Comparison key of the import sort: the pair (tier, line) ordered
lexicographically, as sorted(key=lambda x: (tier, x)) does. -/
def importKeyLe (x y : String) : Bool :=
  importTier x < importTier y || (importTier x = importTier y && strLe x y)

/-- Deduplicated, priority-sorted import block of the merged output.  The
key importKeyLe is a total preorder that is antisymmetric on the distinct
lines of the import set, so the nondecreasing arrangement Python's sorted
produces is unique and an insertion sort computes the same list. -/
def sortedImports (parsed : List PSt) (currentModule : Option String) : List String :=
  (collectImports parsed currentModule).insertionSort (fun x y => importKeyLe x y = true)

/-- Body pipeline of merge step 6 for one document: trim leading and
trailing blank lines, re-apply the line-prefix and substring skip filters,
apply the exclusion filter when exclusions are configured, then the
annotation stripper and the empty-block collapser. -/
def processBody (excludeMessages excludeRpcs : List String) (body : List String) : List String :=
  let b1 := body.dropWhile (fun l => blankLine l)
  let b2 := (b1.reverse.dropWhile (fun l => blankLine l)).reverse
  let b3 := b2.filter (fun l =>
    !(skipLineStarts.any (fun p => strStarts (pyStrip l) p)) &&
    !(skipLineHas.any (fun p => strHas (pyStrip l) p)))
  let b4 :=
    if !excludeMessages.isEmpty || !excludeRpcs.isEmpty then
      filter_excluded_definitions b3 excludeMessages excludeRpcs
    else b3
  cleanup_empty_rpc_blocks (remove_options_from_rpc_blocks b4)

/-- Concatenation of the processed bodies (merge step 6): a document whose
original body is nonempty and whose processed body is nonempty contributes
its processed lines, preceded by one blank separator line when the
document is not the first of the list. -/
def mergedBodies (excludeMessages excludeRpcs : List String) (parsed : List PSt) : List String :=
  (parsed.enum.foldl
    (fun acc ip =>
      if ip.2.body.isEmpty then acc
      else
        let bl := processBody excludeMessages excludeRpcs ip.2.body
        if bl.isEmpty then acc
        else acc ++ (if ip.1 > 0 then [""] else []) ++ bl)
    [])

/-- Header block of the merged output (merge steps 1 to 4): the first
document's license, syntax line, java-package option and package line,
each followed by one blank line when present. -/
def mergedHeader (p0 : PSt) : List String :=
  (if p0.license.isEmpty then [] else p0.license ++ [""]) ++
  (match p0.syntaxLine with | some s => [s, ""] | none => []) ++
  (match p0.javaPackage with | some s => [s, ""] | none => []) ++
  (match p0.packageLine with | some s => [s, ""] | none => [])

/-- Line list of the merged output before the final trailing-blank trim. -/
def mergedLines (parsed : List PSt) (currentModule : Option String)
    (excludeMessages excludeRpcs : List String) : List String :=
  match parsed with
  | [] => []
  | p0 :: _ =>
    mergedHeader p0 ++
    (let si := sortedImports parsed currentModule
     if si.isEmpty then [] else si ++ [""]) ++
    mergedBodies excludeMessages excludeRpcs parsed

/-- Removal of trailing blank lines from the merged list (merge step 7). -/
def trimTrailingBlanks (ls : List String) : List String :=
  (ls.reverse.dropWhile (fun l => blankLine l)).reverse

/-- Embedding of merge_proto_files: the entry point of the merge engine.
Empty input yields the empty string; otherwise the merged line list is
assembled, trailing blank lines are trimmed, and the lines are joined with
one newline and a final newline appended. -/
def merge_proto_files (protoContents : List String) (currentModule : Option String)
    (excludeMessages excludeRpcs : List String) : String :=
  match protoContents with
  | [] => ""
  | _ =>
    let parsed := protoContents.map parse_proto_file
    let merged := trimTrailingBlanks
      (mergedLines parsed currentModule excludeMessages excludeRpcs)
    String.mk (joinNL (merged.map (fun s => s.data)) ++ ['\n'])

/-- Preservation lemma: parseStepTail neither sets the syntax flag nor
touches the syntax line or the body while the syntax flag is unset. -/
theorem parseStepTail_no_syntax (st : PSt) (line s : String) (hs : st.syntaxDone = false) :
    (parseStepTail st line s).syntaxDone = false ∧
    (parseStepTail st line s).syntaxLine = st.syntaxLine ∧
    (parseStepTail st line s).body = st.body := by
  unfold parseStepTail
  dsimp only
  simp only [hs, Bool.false_and, Bool.false_eq_true, if_false]
  repeat' split
  all_goals simp_all

/-- Preservation lemma: parseStepMain on a line that does not begin the
syntax declaration keeps the syntax flag unset and the body unchanged. -/
theorem parseStepMain_no_syntax (st : PSt) (line s : String)
    (hl : strStarts s "syntax =" = false) (hs : st.syntaxDone = false) :
    (parseStepMain st line s).syntaxDone = false ∧
    (parseStepMain st line s).syntaxLine = st.syntaxLine ∧
    (parseStepMain st line s).body = st.body := by
  unfold parseStepMain
  repeat' split
  all_goals first
    | exact parseStepTail_no_syntax st line s hs
    | (simp_all; done)

/-- Preservation lemma: a full scan step on a line that does not begin the
syntax declaration keeps the syntax flag unset and the body unchanged. -/
theorem parseStep_no_syntax (st : PSt) (line : String)
    (hl : strStarts (pyStrip line) "syntax =" = false)
    (hs : st.syntaxDone = false) :
    (parseStep st line).syntaxDone = false ∧
    (parseStep st line).syntaxLine = st.syntaxLine ∧
    (parseStep st line).body = st.body := by
  unfold parseStep
  dsimp only
  repeat' split
  all_goals first
    | exact parseStepMain_no_syntax st line (pyStrip line) hl hs
    | (refine parseStepMain_no_syntax _ line (pyStrip line) hl ?_
       first
         | rfl
         | exact hs
         | simpa using hs)
    | (simp_all; done)

/-- Fold form of the preservation lemma over a whole document. -/
theorem parseLines_no_syntax_aux :
    ∀ (ls : List String) (st : PSt),
      st.syntaxDone = false →
      (∀ l ∈ ls, strStarts (pyStrip l) "syntax =" = false) →
      (ls.foldl parseStep st).syntaxDone = false ∧
      (ls.foldl parseStep st).syntaxLine = st.syntaxLine ∧
      (ls.foldl parseStep st).body = st.body := by
  intro ls
  induction ls with
  | nil => intro st h1 _; exact ⟨h1, rfl, rfl⟩
  | cons a t ih =>
    intro st h1 h2
    simp only [List.foldl_cons]
    have hstep := parseStep_no_syntax st a (h2 a (by simp)) h1
    have hrest := ih (parseStep st a) hstep.1 (fun l hl => h2 l (by simp [hl]))
    exact ⟨hrest.1, hrest.2.1.trans hstep.2.1, hrest.2.2.trans hstep.2.2⟩

/-- C1: evaluation of the Section Extractor at the failing inputs.  The
claim (and the comments in the source) say that a line containing the
option-block marker is always dropped and that its own brace balance alone
decides whether a block opens; the code instead keeps a marker line whose
balance is not positive (first conjunct: the marker line appears in the
body), and for an opened block it doubles the marker line's balance, so
the closing line '};' leaves the block open and the following line 'kept;'
is also consumed (second conjunct: the body is empty). -/
theorem c1_option_block_divergence :
    (parse_proto_file
        "syntax = \"proto3\";\npackage x;\noption (google.api.http) = \x7b\x7d;\nfoo;").body
      = ["option (google.api.http) = \x7b\x7d;", "foo;"] ∧
    (parse_proto_file
        "syntax = \"proto3\";\npackage x;\noption (google.api.http) = \x7b\nfoo\n\x7d;\nkept;").body
      = [] := by
  constructor
  · rfl
  · rfl

/-- C2 counterexample: in the document consisting of the single line
'package x;' no syntax line is ever seen, yet the packageLine field is
set, contradicting the claim that packageLine remains unset whenever no
syntax line has been seen. -/
theorem c2_counterexample :
    (parse_proto_file "package x;").syntaxLine = none ∧
    ¬ (parse_proto_file "package x;").packageLine = none := by
  refine ⟨rfl, ?_⟩
  decide

/-- C2 (amended): the package line is captured by the first qualifying
line beginning with the package keyword whether or not a syntax line has
been captured (last two conjuncts: the one-line document 'package x;' has
its packageLine set and no syntax line); in a document none of whose lines
begins with the syntax keyword the body nevertheless remains empty (first
two conjuncts). -/
theorem c2_package_without_syntax (ls : List String)
    (h : ∀ l ∈ ls, strStarts (pyStrip l) "syntax =" = false) :
    (parseLines ls).syntaxLine = none ∧ (parseLines ls).body = [] ∧
    (parse_proto_file "package x;").packageLine = some "package x;" ∧
    (parse_proto_file "package x;").syntaxLine = none := by
  have haux := parseLines_no_syntax_aux ls initPSt rfl h
  exact ⟨haux.2.1, haux.2.2, rfl, rfl⟩

/-- Witness for the amended C2 at the concrete one-line document. -/
theorem c2_package_without_syntax_witness :
    (parseLines ["package x;"]).syntaxLine = none ∧
    (parseLines ["package x;"]).body = [] ∧
    (parse_proto_file "package x;").packageLine = some "package x;" ∧
    (parse_proto_file "package x;").syntaxLine = none :=
  c2_package_without_syntax ["package x;"] (by decide)

/-- Step equation of the stripper on a line that is not an RPC opener. -/
theorem removeOpts_cons_keep (line : String) (rest : List String)
    (h : isRpcOpenLine line = false) :
    remove_options_from_rpc_blocks (line :: rest) =
      line :: remove_options_from_rpc_blocks rest := by
  rw [remove_options_from_rpc_blocks]
  simp [h]

/-- Step equation of the stripper on an RPC opener whose inner scan finds
a closing line or a malformed-block boundary. -/
theorem removeOpts_cons_open_some (line : String) (rest : List String)
    (h : isRpcOpenLine line = true) (out rem : List String)
    (hs : scanBlock line rest [] 0 = some (out, rem)) :
    remove_options_from_rpc_blocks (line :: rest) =
      out ++ remove_options_from_rpc_blocks rem := by
  rw [remove_options_from_rpc_blocks]
  simp only [h, if_true]
  split
  next p hp => rw [hs] at hp; cases hp; rfl
  next hp => rw [hs] at hp; cases hp

/-- Step equation of the stripper on an RPC opener whose inner scan runs
off the end of the input: the opener collapses and scanning resumes at the
line after the opener. -/
theorem removeOpts_cons_open_none (line : String) (rest : List String)
    (h : isRpcOpenLine line = true)
    (hs : scanBlock line rest [] 0 = none) :
    remove_options_from_rpc_blocks (line :: rest) =
      collapseRpc line :: remove_options_from_rpc_blocks rest := by
  rw [remove_options_from_rpc_blocks]
  simp only [h, if_true]
  split
  next p hp => rw [hs] at hp; cases hp
  next hp => rfl

/-- Base equation of the stripper. -/
theorem removeOpts_nil : remove_options_from_rpc_blocks [] = [] := by
  rw [remove_options_from_rpc_blocks]

/-- Characterisation of the inner scan when a definition-start line occurs
before any closing line: the opener collapses and the scan resumes at the
offending line without consuming it, whatever was seen before it. -/
theorem scanBlock_malformed :
    ∀ (inner : List String) (r : String) (content : List String) (opt : Nat)
      (off : String) (rest : List String),
      (∀ l ∈ inner, isDefStart (pyStrip l) = false ∧ pyStrip l ≠ "\x7d") →
      isDefStart (pyStrip off) = true →
      scanBlock r (inner ++ off :: rest) content opt = some ([collapseRpc r], off :: rest) := by
  intro inner
  induction inner with
  | nil =>
    intro r content opt off rest _ hoff
    unfold scanBlock
    simp [hoff]
  | cons l t ih =>
    intro r content opt off rest hin hoff
    have hl := hin l (by simp)
    unfold scanBlock
    dsimp only
    simp only [List.cons_append]
    rw [if_neg (by simp [hl.1]), if_neg (by simp [hl.2])]
    split
    · exact ih r content (opt + 1) off rest (fun x hx => hin x (by simp [hx])) hoff
    · exact ih r (content ++ [l]) opt off rest (fun x hx => hin x (by simp [hx])) hoff

/-- Characterisation of the inner scan of a block with no kept non-blank
content: with matching annotations present (or a positive running count)
the closing line is consumed; with none at all it is left unconsumed. -/
theorem scanBlock_all_skippable :
    ∀ (inner : List String) (r : String) (content : List String) (opt : Nat)
      (rest : List String),
      (∀ c ∈ content, pyStrip c = "") →
      (∀ l ∈ inner, isDefStart (pyStrip l) = false ∧ pyStrip l ≠ "\x7d" ∧
        (optionBlocks.any (fun p => strHas (pyStrip l) p) = true ∨ pyStrip l = "")) →
      scanBlock r (inner ++ "\x7d" :: rest) content opt =
        (if opt > 0 ∨ inner.any (fun l => optionBlocks.any (fun p => strHas (pyStrip l) p)) = true
         then some ([collapseRpc r], rest)
         else some ([collapseRpc r], "\x7d" :: rest)) := by
  intro inner
  induction inner with
  | nil =>
    intro r content opt rest hc _
    have hnc : (content.any (fun c => !(pyStrip c).isEmpty)) = false := by
      simp only [List.any_eq_false]
      intro c hcm
      have h0 := hc c hcm
      rw [h0]
      decide
    simp only [List.nil_append]
    unfold scanBlock
    dsimp only
    rw [if_neg (by decide), if_pos (by decide), hnc]
    simp only [Bool.or_false, Bool.false_eq_true, if_false, List.any_nil,
      decide_eq_true_eq, or_false]
  | cons l t ih =>
    intro r content opt rest hc hin
    have hl := hin l (by simp)
    unfold scanBlock
    dsimp only
    simp only [List.cons_append]
    rw [if_neg (by simp [hl.1]), if_neg (by simp [hl.2.1])]
    rcases hl.2.2 with hann | hblank
    · rw [if_pos hann]
      rw [ih r content (opt + 1) rest hc (fun x hx => hin x (by simp [hx]))]
      have hcond1 : (opt + 1 > 0 ∨
          (t.any (fun l => optionBlocks.any (fun p => strHas (pyStrip l) p))) = true) :=
        Or.inl (Nat.succ_pos opt)
      have hcond2 : (opt > 0 ∨
          ((l :: t).any (fun l => optionBlocks.any (fun p => strHas (pyStrip l) p))) = true) := by
        right
        simp only [List.any_cons, Bool.or_eq_true]
        exact Or.inl hann
      rw [if_pos hcond1, if_pos hcond2]
    · by_cases hann : optionBlocks.any (fun p => strHas (pyStrip l) p) = true
      · rw [if_pos hann]
        rw [ih r content (opt + 1) rest hc (fun x hx => hin x (by simp [hx]))]
        have hcond1 : (opt + 1 > 0 ∨
            (t.any (fun l => optionBlocks.any (fun p => strHas (pyStrip l) p))) = true) :=
          Or.inl (Nat.succ_pos opt)
        have hcond2 : (opt > 0 ∨
            ((l :: t).any (fun l => optionBlocks.any (fun p => strHas (pyStrip l) p))) = true) := by
          right
          simp only [List.any_cons, Bool.or_eq_true]
          exact Or.inl hann
        rw [if_pos hcond1, if_pos hcond2]
      · rw [if_neg hann]
        have hc2 : ∀ c ∈ content ++ [l], pyStrip c = "" := by
          intro c hcm
          rcases List.mem_append.mp hcm with hc1 | hc1
          · exact hc c hc1
          · simp only [List.mem_singleton] at hc1
            subst hc1
            exact hblank
        rw [ih r (content ++ [l]) opt rest hc2 (fun x hx => hin x (by simp [hx]))]
        have hfalse : optionBlocks.any (fun p => strHas (pyStrip l) p) = false := by
          simpa using hann
        simp only [List.any_cons, hfalse, Bool.false_or]

/-- C3 counterexample: for the RPC block opener immediately followed by
the bare closing line, the output is the collapsed opener FOLLOWED by the
closing line: the closing line is re-emitted, not dropped, contradicting
the claim that the closer is not emitted in the no-inner-lines case. -/
theorem c3_counterexample :
    remove_options_from_rpc_blocks ["rpc A(B) returns (C) \x7b", "\x7d"]
      = ["rpc A(B) returns (C);", "\x7d"] ∧
    remove_options_from_rpc_blocks ["rpc A(B) returns (C) \x7b", "\x7d"]
      ≠ ["rpc A(B) returns (C);"] := by
  have hsc : scanBlock "rpc A(B) returns (C) \x7b" ["\x7d"] [] 0 =
      some (["rpc A(B) returns (C);"], ["\x7d"]) := by decide
  have h1 : remove_options_from_rpc_blocks ["rpc A(B) returns (C) \x7b", "\x7d"]
      = ["rpc A(B) returns (C);", "\x7d"] := by
    rw [removeOpts_cons_open_some _ _ (by decide) _ _ hsc]
    rw [List.singleton_append, removeOpts_cons_keep _ _ (by decide), removeOpts_nil]
  refine ⟨h1, ?_⟩
  rw [h1]
  decide

/-- C3 (amended): for an RPC block whose inner lines hold no kept content
(each is a matching annotation or blank), the block collapses to the
opener with its trailing brace removed and a semicolon appended; the
closing line is consumed when at least one matching annotation was
removed, and re-emitted (treated as the enclosing service block closer)
when none was. -/
theorem c3_amended_no_kept_content (opener : String) (inner rest : List String)
    (hop : isRpcOpenLine opener = true)
    (hin : ∀ l ∈ inner, isDefStart (pyStrip l) = false ∧ pyStrip l ≠ "\x7d" ∧
      (optionBlocks.any (fun p => strHas (pyStrip l) p) = true ∨ pyStrip l = "")) :
    remove_options_from_rpc_blocks (opener :: (inner ++ "\x7d" :: rest)) =
      (if inner.any (fun l => optionBlocks.any (fun p => strHas (pyStrip l) p)) = true
       then collapseRpc opener :: remove_options_from_rpc_blocks rest
       else collapseRpc opener :: "\x7d" :: remove_options_from_rpc_blocks rest) := by
  have hscan := scanBlock_all_skippable inner opener [] 0 rest (by simp) hin
  by_cases hany : inner.any (fun l => optionBlocks.any (fun p => strHas (pyStrip l) p)) = true
  · rw [if_pos hany]
    have hsc : scanBlock opener (inner ++ "\x7d" :: rest) [] 0 =
        some ([collapseRpc opener], rest) := by
      rw [hscan, if_pos (Or.inr hany)]
    rw [removeOpts_cons_open_some opener _ hop _ _ hsc, List.singleton_append]
  · rw [if_neg hany]
    have hsc : scanBlock opener (inner ++ "\x7d" :: rest) [] 0 =
        some ([collapseRpc opener], "\x7d" :: rest) := by
      rw [hscan, if_neg ?_]
      intro hcontr
      rcases hcontr with h1 | h1
      · omega
      · exact hany h1
    rw [removeOpts_cons_open_some opener _ hop _ _ hsc, List.singleton_append]
    rw [removeOpts_cons_keep _ rest (by decide)]

/-- Witness for the amended C3 at the opener-plus-bare-closer input. -/
theorem c3_amended_witness :
    remove_options_from_rpc_blocks ("rpc A(B) returns (C) \x7b" :: ([] ++ "\x7d" :: [])) =
      (if List.any [] (fun l => optionBlocks.any (fun p => strHas (pyStrip l) p)) = true
       then collapseRpc "rpc A(B) returns (C) \x7b" :: remove_options_from_rpc_blocks []
       else collapseRpc "rpc A(B) returns (C) \x7b" :: "\x7d" :: remove_options_from_rpc_blocks []) :=
  c3_amended_no_kept_content "rpc A(B) returns (C) \x7b" [] [] (by decide) (by simp)

/-- C5: an RPC block whose inner lines are all matching annotation option
statements collapses to exactly the single line
rpc Baz(Req) returns (Res); consuming the closing brace line. -/
theorem c5_annotation_only (inner rest : List String) (hne : inner ≠ [])
    (hin : ∀ l ∈ inner, optionBlocks.any (fun p => strHas (pyStrip l) p) = true ∧
      isDefStart (pyStrip l) = false ∧ pyStrip l ≠ "\x7d") :
    remove_options_from_rpc_blocks
        ("rpc Baz(Req) returns (Res) \x7b" :: (inner ++ "\x7d" :: rest)) =
      "rpc Baz(Req) returns (Res);" :: remove_options_from_rpc_blocks rest := by
  have hop : isRpcOpenLine "rpc Baz(Req) returns (Res) \x7b" = true := by decide
  have hscan := scanBlock_all_skippable inner "rpc Baz(Req) returns (Res) \x7b" [] 0 rest
    (by simp) (fun l hl => ⟨(hin l hl).2.1, (hin l hl).2.2, Or.inl (hin l hl).1⟩)
  have hany : inner.any (fun l => optionBlocks.any (fun p => strHas (pyStrip l) p)) = true := by
    cases inner with
    | nil => exact absurd rfl hne
    | cons a t =>
      simp only [List.any_cons, Bool.or_eq_true]
      exact Or.inl (hin a (by simp)).1
  have hsc : scanBlock "rpc Baz(Req) returns (Res) \x7b" (inner ++ "\x7d" :: rest) [] 0 =
      some (["rpc Baz(Req) returns (Res);"], rest) := by
    rw [hscan, if_pos (Or.inr hany)]
    have hcoll : collapseRpc "rpc Baz(Req) returns (Res) \x7b" =
        "rpc Baz(Req) returns (Res);" := by decide
    rw [hcoll]
  rw [removeOpts_cons_open_some _ _ hop _ _ hsc, List.singleton_append]

/-- Witness for C5 with one concrete matching annotation line. -/
theorem c5_annotation_only_witness :
    remove_options_from_rpc_blocks
        ("rpc Baz(Req) returns (Res) \x7b" ::
          (["    option (google.api.http) = \x7b...\x7d;"] ++ "\x7d" :: [])) =
      "rpc Baz(Req) returns (Res);" :: remove_options_from_rpc_blocks [] :=
  c5_annotation_only ["    option (google.api.http) = \x7b...\x7d;"] [] (by decide) (by decide)

/-- C6: an RPC opener followed (before any closing line) by a line that
starts a new rpc, service or message definition is collapsed to a single
terminated line, and scanning resumes from the offending line without
consuming it; when that line is a message line (and not itself an RPC
opener), it appears in the output unmodified and in position. -/
theorem c6_malformed_tolerance (opener : String) (inner : List String) (off : String)
    (rest : List String)
    (hop : isRpcOpenLine opener = true)
    (hin : ∀ l ∈ inner, isDefStart (pyStrip l) = false ∧ pyStrip l ≠ "\x7d")
    (hoff : isDefStart (pyStrip off) = true) :
    remove_options_from_rpc_blocks (opener :: (inner ++ off :: rest)) =
      collapseRpc opener :: remove_options_from_rpc_blocks (off :: rest) ∧
    (strStarts (pyStrip off) "message " = true → isRpcOpenLine off = false →
      remove_options_from_rpc_blocks (opener :: (inner ++ off :: rest)) =
        collapseRpc opener :: off :: remove_options_from_rpc_blocks rest) := by
  have hscan := scanBlock_malformed inner opener [] 0 off rest hin hoff
  have h1 : remove_options_from_rpc_blocks (opener :: (inner ++ off :: rest)) =
      collapseRpc opener :: remove_options_from_rpc_blocks (off :: rest) := by
    rw [removeOpts_cons_open_some opener _ hop _ _ hscan, List.singleton_append]
  refine ⟨h1, fun _ hnotopen => ?_⟩
  rw [h1, removeOpts_cons_keep off rest hnotopen]

/-- Witness for C6 with a concrete unclosed block before a message line. -/
theorem c6_malformed_tolerance_witness :
    (remove_options_from_rpc_blocks
        ("rpc A(B) returns (C) \x7b" :: ([] ++ "message M \x7b" :: ["\x7d"])) =
      collapseRpc "rpc A(B) returns (C) \x7b" ::
        remove_options_from_rpc_blocks ("message M \x7b" :: ["\x7d"])) ∧
    (strStarts (pyStrip "message M \x7b") "message " = true →
      isRpcOpenLine "message M \x7b" = false →
      remove_options_from_rpc_blocks
          ("rpc A(B) returns (C) \x7b" :: ([] ++ "message M \x7b" :: ["\x7d"])) =
        collapseRpc "rpc A(B) returns (C) \x7b" :: "message M \x7b" ::
          remove_options_from_rpc_blocks ["\x7d"]) :=
  c6_malformed_tolerance "rpc A(B) returns (C) \x7b" [] "message M \x7b" ["\x7d"]
    (by decide) (by simp) (by decide)

/-- Boolean prefix test agrees with the prefix relation. -/
theorem isPre_iff (p : List Char) : ∀ l, isPre p l = true ↔ p <+: l := by
  induction p with
  | nil => intro l; simp [isPre]
  | cons a as ih =>
    intro l
    cases l with
    | nil => simp [isPre]
    | cons b bs =>
      simp only [isPre, Bool.and_eq_true, decide_eq_true_eq]
      constructor
      · rintro ⟨rfl, h⟩
        exact (List.prefix_cons_iff).mpr (Or.inr ⟨as, rfl, (ih bs).mp h⟩)
      · intro h
        rcases (List.prefix_cons_iff).mp h with h1 | ⟨t, ht, hp⟩
        · cases h1
        · cases ht
          exact ⟨rfl, (ih bs).mpr hp⟩

/-- Boolean substring test agrees with the infix relation. -/
theorem hasSub_iff (p : List Char) : ∀ l, hasSub p l = true ↔ p <:+: l := by
  intro l
  induction l with
  | nil =>
    simp only [hasSub]
    rw [isPre_iff]
    constructor
    · intro h; exact h.isInfix
    · intro h
      have h0 : p = [] := List.infix_nil.mp h
      subst h0
      exact List.nil_prefix
  | cons b bs ih =>
    simp only [hasSub, Bool.or_eq_true]
    rw [isPre_iff, List.infix_cons_iff, ih]

/-- Stripping whitespace yields an infix of the original characters. -/
theorem pyStripL_infix (l : List Char) : pyStripL l <:+: l := by
  unfold pyStripL
  have h1 : l.dropWhile pyIsSpace <:+ l := List.dropWhile_suffix pyIsSpace
  have h2 : ((l.dropWhile pyIsSpace).reverse.dropWhile pyIsSpace) <:+
      (l.dropWhile pyIsSpace).reverse := List.dropWhile_suffix pyIsSpace
  have h3 : ((l.dropWhile pyIsSpace).reverse.dropWhile pyIsSpace).reverse <+:
      ((l.dropWhile pyIsSpace).reverse).reverse := List.reverse_prefix.mpr h2
  rw [List.reverse_reverse] at h3
  exact h3.isInfix.trans h1.isInfix

/-- A captured definition name is an infix of the matched line. -/
theorem matchKeywordName_some_infix (kw s : String) (nm : String)
    (h : matchKeywordName kw s = some nm) : nm.data <:+: s.data := by
  unfold matchKeywordName at h
  split at h
  · dsimp only at h
    split at h
    · cases h
    · split at h
      · cases h
      · simp only [Option.some.injEq] at h
        subst h
        have h1 : ((s.data.drop kw.length).drop
              ((s.data.drop kw.length).takeWhile pyIsSpace).length).takeWhile isWordChar <+:
            ((s.data.drop kw.length).drop
              ((s.data.drop kw.length).takeWhile pyIsSpace).length) :=
          List.takeWhile_prefix isWordChar
        have h2 := List.drop_suffix ((s.data.drop kw.length).takeWhile pyIsSpace).length
          (s.data.drop kw.length)
        have h3 := List.drop_suffix kw.length s.data
        exact h1.isInfix.trans ((h2.isInfix).trans h3.isInfix)
  · cases h

/-- Net brace balance of a list of lines, computed on stripped lines as
the filter's loop accumulates it. -/
def balSum (ls : List String) : Int := (ls.map (fun s => braceBal (pyStrip s))).sum

/-- Balance of the empty line list. -/
theorem balSum_nil : balSum [] = 0 := rfl

/-- Balance of a line list, head step. -/
theorem balSum_cons (b : String) (t : List String) :
    balSum (b :: t) = braceBal (pyStrip b) + balSum t := by
  simp [balSum]

/-- Step equation of the exclusion filter while skipping a definition. -/
theorem filterGo_skip_step (exM exR : List String) (d : Int) (b : String) (rest : List String) :
    filterGo exM exR (some d) (b :: rest) =
      (if d + braceBal (pyStrip b) ≤ 0 then filterGo exM exR none rest
       else filterGo exM exR (some (d + braceBal (pyStrip b))) rest) := by
  conv_lhs => rw [filterGo]

/-- While skipping, a block whose partial balances stay positive until a
final line brings the running balance to zero or below is consumed whole,
the terminating line included, and normal scanning resumes after it. -/
theorem filterGo_skip_block :
    ∀ (blk : List String) (exM exR : List String) (d : Int) (rest : List String),
      blk ≠ [] →
      (∀ k, k + 1 < blk.length → 0 < d + balSum (blk.take (k + 1))) →
      d + balSum blk ≤ 0 →
      filterGo exM exR (some d) (blk ++ rest) = filterGo exM exR none rest := by
  intro blk
  induction blk with
  | nil => intro _ _ _ _ h; exact absurd rfl h
  | cons b t ih =>
    intro exM exR d rest _ hmid htot
    rw [List.cons_append, filterGo_skip_step]
    cases t with
    | nil =>
      have h1 : d + braceBal (pyStrip b) ≤ 0 := by
        have := htot
        rw [balSum_cons, balSum_nil] at this
        omega
      rw [if_pos h1]
      simp
    | cons c t2 =>
      have h0 : 0 < d + balSum ((b :: c :: t2).take 1) := by
        apply hmid 0
        simp
      have h1 : ¬ d + braceBal (pyStrip b) ≤ 0 := by
        simp only [List.take_cons_succ, List.take_zero, balSum_cons, balSum_nil] at h0
        omega
      rw [if_neg h1]
      apply ih exM exR (d + braceBal (pyStrip b)) rest (by simp)
      · intro k hk
        have := hmid (k + 1) (by simpa using Nat.succ_lt_succ hk)
        rw [List.take_cons_succ, balSum_cons] at this
        omega
      · rw [balSum_cons] at htot
        omega

/-- A line whose captured message name is Foo contains Foo as substring. -/
theorem strHas_of_message_foo (l : String) (nm : String)
    (h : matchKeywordName "message" (pyStrip l) = some nm) (hnm : nm = "Foo") :
    strHas l "Foo" = true := by
  subst hnm
  have h1 : ("Foo" : String).data <:+: (pyStrip l).data := matchKeywordName_some_infix _ _ _ h
  have h2 : (pyStrip l).data <:+: l.data := by
    unfold pyStrip
    exact pyStripL_infix l.data
  unfold strHas
  exact (hasSub_iff _ _).mpr (h1.trans h2)

/-- Lines free of the substring Foo pass through the exclusion filter
unchanged when Foo is the only excluded message and no RPC is excluded. -/
theorem filterGo_none_no_foo :
    ∀ (rest : List String), (∀ l ∈ rest, strHas l "Foo" = false) →
      filterGo ["Foo"] [] none rest = rest := by
  intro rest
  induction rest with
  | nil => intro _; rfl
  | cons b t ih =>
    intro hno
    have hb := hno b (by simp)
    have hkeep : (if (!(([] : List String)).isEmpty && strStarts (pyStrip b) "rpc ") = true
        then b :: filterGo ["Foo"] [] none t else b :: filterGo ["Foo"] [] none t)
        = b :: filterGo ["Foo"] [] none t := by simp
    have iht := ih (fun l hl => hno l (by simp [hl]))
    unfold filterGo
    dsimp only
    by_cases hm : strStarts (pyStrip b) "message " = true
    · rw [if_pos (by simp [hm])]
      cases hname : matchKeywordName "message" (pyStrip b) with
      | none => simp [iht]
      | some nm =>
        have hne : nm ≠ "Foo" := by
          intro hcontra
          rw [strHas_of_message_foo b nm hname hcontra] at hb
          cases hb
        simp [hne, iht]
    · rw [if_neg (by simp [hm])]
      simp [iht]

/-- Balance of a concatenation. -/
theorem balSum_append (a b : List String) : balSum (a ++ b) = balSum a + balSum b := by
  simp [balSum]

/-- Step equation of the exclusion filter at an excluded message
declaration line: skipping starts, seeded with that line's balance. -/
theorem filterGo_none_message_excluded (exM exR : List String) (line : String)
    (rest : List String) (nm : String)
    (h1 : exM.isEmpty = false) (h2 : strStarts (pyStrip line) "message " = true)
    (h3 : matchKeywordName "message" (pyStrip line) = some nm) (h4 : exM.contains nm = true) :
    filterGo exM exR none (line :: rest) =
      filterGo exM exR (some (braceBal (pyStrip line))) rest := by
  conv_lhs => rw [filterGo]
  rw [if_pos (by simp [h1, h2]), h3]
  dsimp only
  rw [if_pos h4]

/-- C4: for a body made of a brace-balanced multi-line definition of the
excluded message Foo (partial balances positive until the terminating
line) followed by other lines free of the substring Foo, the filtered
body equals exactly those other lines: it contains zero occurrences of
Foo, the whole definition including its terminating line is gone, and the
brace count of the output is balanced whenever the input was. -/
theorem c4_exclusion_completeness (opener : String) (blk rest : List String)
    (hstart : strStarts (pyStrip opener) "message " = true)
    (hname : matchKeywordName "message" (pyStrip opener) = some "Foo")
    (hblk : blk ≠ [])
    (hmid : ∀ k, k + 1 < blk.length →
      0 < braceBal (pyStrip opener) + balSum (blk.take (k + 1)))
    (hdef : braceBal (pyStrip opener) + balSum blk = 0)
    (hrest : ∀ l ∈ rest, strHas l "Foo" = false)
    (hall : balSum (opener :: (blk ++ rest)) = 0) :
    filter_excluded_definitions (opener :: (blk ++ rest)) ["Foo"] [] = rest ∧
    (∀ l ∈ filter_excluded_definitions (opener :: (blk ++ rest)) ["Foo"] [],
      strHas l "Foo" = false) ∧
    balSum (filter_excluded_definitions (opener :: (blk ++ rest)) ["Foo"] []) = 0 := by
  have hmain : filter_excluded_definitions (opener :: (blk ++ rest)) ["Foo"] [] = rest := by
    unfold filter_excluded_definitions
    rw [if_neg (by simp)]
    rw [filterGo_none_message_excluded ["Foo"] [] opener (blk ++ rest) "Foo"
      (by simp) hstart hname (by simp)]
    rw [filterGo_skip_block blk ["Foo"] [] (braceBal (pyStrip opener)) rest hblk hmid (by omega)]
    exact filterGo_none_no_foo rest hrest
  refine ⟨hmain, ?_, ?_⟩
  · rw [hmain]
    exact hrest
  · rw [hmain]
    rw [balSum_cons, balSum_append] at hall
    omega

/-- Witness for C4 at a concrete nested definition plus a second message. -/
theorem c4_exclusion_completeness_witness :
    filter_excluded_definitions
        ("message Foo \x7b" :: (["  nested \x7b \x7d", "\x7d"] ++ ["message Bar \x7b", "\x7d"]))
        ["Foo"] [] = ["message Bar \x7b", "\x7d"] ∧
    (∀ l ∈ filter_excluded_definitions
        ("message Foo \x7b" :: (["  nested \x7b \x7d", "\x7d"] ++ ["message Bar \x7b", "\x7d"]))
        ["Foo"] [], strHas l "Foo" = false) ∧
    balSum (filter_excluded_definitions
        ("message Foo \x7b" :: (["  nested \x7b \x7d", "\x7d"] ++ ["message Bar \x7b", "\x7d"]))
        ["Foo"] []) = 0 :=
  c4_exclusion_completeness "message Foo \x7b" ["  nested \x7b \x7d", "\x7d"]
    ["message Bar \x7b", "\x7d"] (by decide) (by decide) (by decide)
    (by intro k hk
        have hk0 : k = 0 := by simp at hk; omega
        subst hk0
        decide)
    (by decide) (by decide) (by decide)

/-- C10: an excluded message declaration line that is brace-balanced on
its own single line still enters skipping mode with balance zero, so the
next line is always consumed: the scan continues as the skip state on the
following lines, and if the following line opens a block, the filter
keeps skipping through that entire block as well. -/
theorem c10_balanced_decl_still_skips (l : String) (rest : List String) :
    filter_excluded_definitions ("message Foo \x7b\x7d" :: l :: rest) ["Foo"] [] =
      (if braceBal (pyStrip l) ≤ 0 then filterGo ["Foo"] [] none rest
       else filterGo ["Foo"] [] (some (braceBal (pyStrip l))) rest) ∧
    (∀ (blk rest2 : List String), blk ≠ [] → 0 < braceBal (pyStrip l) →
      (∀ k, k + 1 < blk.length → 0 < braceBal (pyStrip l) + balSum (blk.take (k + 1))) →
      braceBal (pyStrip l) + balSum blk ≤ 0 →
      filter_excluded_definitions ("message Foo \x7b\x7d" :: l :: (blk ++ rest2)) ["Foo"] [] =
        filterGo ["Foo"] [] none rest2) := by
  have hstart : strStarts (pyStrip "message Foo \x7b\x7d") "message " = true := by decide
  have hname : matchKeywordName "message" (pyStrip "message Foo \x7b\x7d") = some "Foo" := by
    decide
  have hbal0 : braceBal (pyStrip "message Foo \x7b\x7d") = 0 := by decide
  constructor
  · unfold filter_excluded_definitions
    rw [if_neg (by simp)]
    rw [filterGo_none_message_excluded ["Foo"] [] _ (l :: rest) "Foo"
      (by simp) hstart hname (by simp)]
    rw [hbal0, filterGo_skip_step]
    simp only [zero_add]
  · intro blk rest2 hne hpos hmid htot
    unfold filter_excluded_definitions
    rw [if_neg (by simp)]
    rw [filterGo_none_message_excluded ["Foo"] [] _ (l :: (blk ++ rest2)) "Foo"
      (by simp) hstart hname (by simp)]
    rw [hbal0, filterGo_skip_step]
    rw [if_neg (by omega)]
    rw [show (0 : Int) + braceBal (pyStrip l) = braceBal (pyStrip l) by omega]
    exact filterGo_skip_block blk ["Foo"] [] (braceBal (pyStrip l)) rest2 hne hmid htot

/-- Witness for C10: the balanced declaration swallows a following
one-line block and scanning resumes after it. -/
theorem c10_balanced_decl_still_skips_witness :
    filter_excluded_definitions
        ("message Foo \x7b\x7d" :: "open \x7b" :: (["\x7d"] ++ ["after;"])) ["Foo"] [] =
      filterGo ["Foo"] [] none ["after;"] :=
  (c10_balanced_decl_still_skips "open \x7b" ["x"]).2 ["\x7d"] ["after;"]
    (by decide) (by decide)
    (by intro k hk; simp at hk)
    (by decide)

/-- Transitivity of the code-point lexicographic order. -/
theorem listLe_trans : ∀ (x y z : List Char),
    listLe x y = true → listLe y z = true → listLe x z = true := by
  intro x
  induction x with
  | nil => intro y z _ _; simp [listLe]
  | cons a as ih =>
    intro y z h1 h2
    cases y with
    | nil => simp [listLe] at h1
    | cons b bs =>
      cases z with
      | nil => simp [listLe] at h2
      | cons c cs =>
        simp only [listLe] at h1 h2 ⊢
        by_cases hab : a = b
        · subst hab
          rw [if_pos rfl] at h1
          by_cases hac : a = c
          · subst hac
            rw [if_pos rfl] at h2 ⊢
            exact ih bs cs h1 h2
          · rw [if_neg hac] at h2 ⊢
            exact h2
        · rw [if_neg hab] at h1
          simp only [decide_eq_true_eq] at h1
          by_cases hbc : b = c
          · subst hbc
            rw [if_neg hab]
            simpa using h1
          · rw [if_neg hbc] at h2
            simp only [decide_eq_true_eq] at h2
            have hac : a ≠ c := by
              intro h
              subst h
              omega
            rw [if_neg hac]
            simp only [decide_eq_true_eq]
            omega

/-- Totality of the code-point lexicographic order. -/
theorem listLe_total : ∀ (x y : List Char), listLe x y = true ∨ listLe y x = true := by
  intro x
  induction x with
  | nil => intro y; left; simp [listLe]
  | cons a as ih =>
    intro y
    cases y with
    | nil => right; simp [listLe]
    | cons b bs =>
      simp only [listLe]
      by_cases hab : a = b
      · subst hab
        rw [if_pos rfl, if_pos rfl]
        exact ih bs
      · have hba : b ≠ a := fun h => hab h.symm
        rw [if_neg hab, if_neg hba]
        simp only [decide_eq_true_eq]
        have hne : a.toNat ≠ b.toNat := by
          intro h
          apply hab
          rw [← Char.ofNat_toNat a, h, Char.ofNat_toNat]
        omega

/-- Transitivity of the three-tier import sort key. -/
theorem importKeyLe_trans (x y z : String)
    (h1 : importKeyLe x y = true) (h2 : importKeyLe y z = true) : importKeyLe x z = true := by
  unfold importKeyLe at h1 h2 ⊢
  simp only [Bool.or_eq_true, Bool.and_eq_true, decide_eq_true_eq] at h1 h2 ⊢
  rcases h1 with h1 | ⟨h1a, h1b⟩
  · rcases h2 with h2 | ⟨h2a, h2b⟩
    · left; omega
    · left; omega
  · rcases h2 with h2 | ⟨h2a, h2b⟩
    · left; omega
    · right
      exact ⟨by omega, listLe_trans x.data y.data z.data h1b h2b⟩

/-- Totality of the three-tier import sort key. -/
theorem importKeyLe_total (x y : String) :
    importKeyLe x y = true ∨ importKeyLe y x = true := by
  unfold importKeyLe
  simp only [Bool.or_eq_true, Bool.and_eq_true, decide_eq_true_eq]
  by_cases ht : importTier x = importTier y
  · rcases listLe_total x.data y.data with h | h
    · left; right; exact ⟨ht, h⟩
    · right; right; exact ⟨ht.symm, h⟩
  · by_cases hlt : importTier x < importTier y
    · left; left; exact hlt
    · right; left; omega

/-- Transitivity instance packaging importKeyLe_trans. -/
instance importKeyLeIsTrans : IsTrans String (fun x y => importKeyLe x y = true) :=
  ⟨fun x y z => importKeyLe_trans x y z⟩

/-- Totality instance packaging importKeyLe_total. -/
instance importKeyLeIsTotal : IsTotal String (fun x y => importKeyLe x y = true) :=
  ⟨fun x y => importKeyLe_total x y⟩

/-- Set-style insertion keeps the collected import list duplicate free. -/
theorem addImport_nodup (cm : Option String) (acc : List String) (imp : String)
    (h : acc.Nodup) : (addImport cm acc imp).Nodup := by
  unfold addImport
  dsimp only
  split
  · exact h
  · split
    · exact h
    · next hmem =>
      rw [List.nodup_append]
      refine ⟨h, List.nodup_singleton _, ?_⟩
      intro a ha hb
      simp only [List.mem_singleton] at hb
      subst hb
      exact absurd ha (by simpa using hmem)

/-- Folding insertions over one document keeps the list duplicate free. -/
theorem foldl_addImport_nodup (cm : Option String) :
    ∀ (imps : List String) (acc : List String), acc.Nodup →
      (imps.foldl (addImport cm) acc).Nodup := by
  intro imps
  induction imps with
  | nil => intro acc h; exact h
  | cons a t ih =>
    intro acc h
    exact ih (addImport cm acc a) (addImport_nodup cm acc a h)

/-- The collected import set of all documents is duplicate free. -/
theorem collectImports_nodup (parsed : List PSt) (cm : Option String) :
    (collectImports parsed cm).Nodup := by
  unfold collectImports
  suffices hgen : ∀ (ps : List PSt) (acc : List String), acc.Nodup →
      (ps.foldl (fun acc p => p.imports.foldl (addImport cm) acc) acc).Nodup by
    exact hgen parsed [] List.nodup_nil
  intro ps
  induction ps with
  | nil => intro acc h; exact h
  | cons p t ih =>
    intro acc h
    exact ih _ (foldl_addImport_nodup cm p.imports acc h)

/-- C7: the merged import block holds each (rewritten, self-filtered)
line exactly once, whatever the documents repeat: it is duplicate
free, its membership agrees with the collected import set, and it is
arranged by the three-tier key (google-substring lines first, validate
second, everything else last, ties by full-line lexicographic order).  The
final conjunct instantiates the spec's example: the duplicated google
line appears once and precedes the validate line. -/
theorem c7_import_dedup_order (parsed : List PSt) (cm : Option String) :
    (sortedImports parsed cm).Nodup ∧
    List.Pairwise (fun a b => importKeyLe a b = true) (sortedImports parsed cm) ∧
    (∀ l, l ∈ sortedImports parsed cm ↔ l ∈ collectImports parsed cm) ∧
    sortedImports [parse_proto_file "import \"google/api/a.proto\";",
        parse_proto_file "import \"google/api/a.proto\";\nimport \"validate/v.proto\";"] none =
      ["import \"google/api/a.proto\";", "import \"validate/v.proto\";"] := by
  have hperm := List.perm_insertionSort (fun x y => importKeyLe x y = true)
    (collectImports parsed cm)
  refine ⟨?_, ?_, ?_, ?_⟩
  · exact hperm.nodup_iff.mpr (collectImports_nodup parsed cm)
  · exact List.sorted_insertionSort (fun x y => importKeyLe x y = true) _
  · intro l
    exact hperm.mem_iff
  · decide

/-- A line that contains no newline character; the invariant every line of
the merged output satisfies. -/
def noNL (s : String) : Prop := '\n' ∉ s.data

/-- Every part produced by the line splitter is newline free. -/
theorem splitLines_no_newline : ∀ (l : List Char), ∀ part ∈ splitLines l, '\n' ∉ part := by
  intro l
  induction l with
  | nil =>
    intro part hp
    simp only [splitLines, List.mem_singleton] at hp
    subst hp
    simp
  | cons c rest ih =>
    intro part hp
    simp only [splitLines] at hp
    by_cases hc : c = '\n'
    · rw [if_pos hc] at hp
      rcases List.mem_cons.mp hp with h | h
      · subst h; simp
      · exact ih part h
    · rw [if_neg hc] at hp
      cases hr : splitLines rest with
      | nil =>
        rw [hr] at hp
        simp only [List.mem_singleton] at hp
        subst hp
        simp only [List.mem_singleton]
        exact fun h => hc h.symm
      | cons h t =>
        rw [hr] at hp
        rcases List.mem_cons.mp hp with h1 | h1
        · subst h1
          intro hmem
          rcases List.mem_cons.mp hmem with h2 | h2
          · exact hc h2.symm
          · exact ih h (by rw [hr]; simp) h2
        · exact ih part (by rw [hr]; simp [h1])

/-- All-fields no-newline invariant of the parse state. -/
def pstNoNL (st : PSt) : Prop :=
  (∀ x ∈ st.license, noNL x) ∧
  (∀ s, st.syntaxLine = some s → noNL s) ∧
  (∀ s, st.javaPackage = some s → noNL s) ∧
  (∀ s, st.packageLine = some s → noNL s) ∧
  (∀ x ∈ st.imports, noNL x) ∧
  (∀ x ∈ st.body, noNL x)

/-- Relation between a parse state and a successor produced from the raw
line: every stored field is unchanged, extended with the line, or set to
the line. -/
def fieldsExtend (st st2 : PSt) (line : String) : Prop :=
  (st2.license = st.license ∨ st2.license = st.license ++ [line]) ∧
  (st2.syntaxLine = st.syntaxLine ∨ st2.syntaxLine = some line) ∧
  (st2.javaPackage = st.javaPackage ∨ st2.javaPackage = some line) ∧
  (st2.packageLine = st.packageLine ∨ st2.packageLine = some line) ∧
  (st2.imports = st.imports ∨ st2.imports = st.imports ++ [line]) ∧
  (st2.body = st.body ∨ st2.body = st.body ++ [line])

/-- The tail step only preserves, extends or sets fields with the line. -/
theorem parseStepTail_extends (st : PSt) (line s : String) :
    fieldsExtend st (parseStepTail st line s) line := by
  unfold fieldsExtend parseStepTail
  dsimp only
  repeat' split
  all_goals refine ⟨?_, ?_, ?_, ?_, ?_, ?_⟩ <;> simp

/-- The main step only preserves, extends or sets fields with the line. -/
theorem parseStepMain_extends (st : PSt) (line s : String) :
    fieldsExtend st (parseStepMain st line s) line := by
  unfold parseStepMain
  repeat' split
  all_goals first
    | exact parseStepTail_extends st line s
    | (unfold fieldsExtend
       refine ⟨?_, ?_, ?_, ?_, ?_, ?_⟩ <;> simp)

/-- A full scan step only preserves, extends or sets fields with the line. -/
theorem parseStep_extends (st : PSt) (line : String) :
    fieldsExtend st (parseStep st line) line := by
  unfold parseStep
  dsimp only
  repeat' split
  all_goals first
    | exact parseStepMain_extends st line (pyStrip line)
    | exact parseStepMain_extends { st with licenseDone := true } line (pyStrip line)
    | (unfold fieldsExtend
       refine ⟨?_, ?_, ?_, ?_, ?_, ?_⟩ <;> simp)

/-- Extending with a newline-free line preserves the invariant. -/
theorem pstNoNL_extends (st st2 : PSt) (line : String)
    (hst : pstNoNL st) (hl : noNL line) (h : fieldsExtend st st2 line) : pstNoNL st2 := by
  obtain ⟨h1, h2, h3, h4, h5, h6⟩ := h
  obtain ⟨g1, g2, g3, g4, g5, g6⟩ := hst
  refine ⟨?_, ?_, ?_, ?_, ?_, ?_⟩
  · rcases h1 with h | h <;> rw [h]
    · exact g1
    · intro x hx
      rcases List.mem_append.mp hx with hx | hx
      · exact g1 x hx
      · simp only [List.mem_singleton] at hx; subst hx; exact hl
  · rcases h2 with h | h <;> rw [h]
    · exact g2
    · intro x hx; injection hx with hx; subst hx; exact hl
  · rcases h3 with h | h <;> rw [h]
    · exact g3
    · intro x hx; injection hx with hx; subst hx; exact hl
  · rcases h4 with h | h <;> rw [h]
    · exact g4
    · intro x hx; injection hx with hx; subst hx; exact hl
  · rcases h5 with h | h <;> rw [h]
    · exact g5
    · intro x hx
      rcases List.mem_append.mp hx with hx | hx
      · exact g5 x hx
      · simp only [List.mem_singleton] at hx; subst hx; exact hl
  · rcases h6 with h | h <;> rw [h]
    · exact g6
    · intro x hx
      rcases List.mem_append.mp hx with hx | hx
      · exact g6 x hx
      · simp only [List.mem_singleton] at hx; subst hx; exact hl

/-- Scanning newline-free lines keeps every stored field newline free. -/
theorem parseLines_noNL (ls : List String) (h : ∀ l ∈ ls, noNL l) :
    pstNoNL (parseLines ls) := by
  unfold parseLines
  suffices hgen : ∀ (ls2 : List String) (st : PSt), pstNoNL st → (∀ l ∈ ls2, noNL l) →
      pstNoNL (ls2.foldl parseStep st) by
    refine hgen ls initPSt ?_ h
    refine ⟨?_, ?_, ?_, ?_, ?_, ?_⟩ <;> simp [initPSt, noNL]
  intro ls2
  induction ls2 with
  | nil => intro st h1 _; exact h1
  | cons a t ih =>
    intro st h1 h2
    exact ih (parseStep st a)
      (pstNoNL_extends st (parseStep st a) a h1 (h2 a (by simp)) (parseStep_extends st a))
      (fun l hl => h2 l (by simp [hl]))

/-- Every field of a parsed document is newline free. -/
theorem parse_proto_file_noNL (content : String) : pstNoNL (parse_proto_file content) := by
  unfold parse_proto_file
  apply parseLines_noNL
  intro l hl
  rcases List.mem_map.mp hl with ⟨part, hpart, hpl⟩
  subst hpl
  exact splitLines_no_newline content.data part hpart

/-- Characters of a stripped line come from the line. -/
theorem mem_pyStripL (l : List Char) (a : Char) (h : a ∈ pyStripL l) : a ∈ l := by
  obtain ⟨s, t, hst⟩ := pyStripL_infix l
  rw [← hst]
  simp only [List.mem_append]
  exact Or.inl (Or.inr h)

/-- Characters of a right-stripped line come from the line. -/
theorem mem_pyRstripL (l : List Char) (a : Char) (h : a ∈ pyRstripL l) : a ∈ l := by
  unfold pyRstripL at h
  rw [List.mem_reverse] at h
  have := (List.dropWhile_sublist (l := l.reverse) pyIsSpace).subset h
  rwa [List.mem_reverse] at this

/-- Characters of a brace-right-stripped line come from the line. -/
theorem mem_rstripBraceL (l : List Char) (a : Char) (h : a ∈ rstripBraceL l) : a ∈ l := by
  unfold rstripBraceL at h
  rw [List.mem_reverse] at h
  have := (List.dropWhile_sublist (l := l.reverse) (fun c => c = '\x7b')).subset h
  rwa [List.mem_reverse] at this

/-- Stripping keeps a line newline free. -/
theorem noNL_pyStrip (s : String) (h : noNL s) : noNL (pyStrip s) := by
  intro hm
  exact h (mem_pyStripL s.data '\n' hm)

/-- Collapsing an RPC opener keeps the line newline free. -/
theorem noNL_collapseRpc (line : String) (h : noNL line) : noNL (collapseRpc line) := by
  intro hm
  unfold collapseRpc at hm
  simp only [List.mem_append, List.mem_singleton] at hm
  rcases hm with hm | hm
  · exact h (mem_pyRstripL _ _ (mem_rstripBraceL _ _ (mem_pyRstripL _ _ hm)))
  · cases hm

/-- Characters of a regex match's capture and remainder come from the
scanned characters. -/
theorem matchAt_mem (l : List Char) (md rem : List Char)
    (h : matchAt l = some (md, rem)) : (∀ a ∈ md, a ∈ l) ∧ (∀ a ∈ rem, a ∈ l) := by
  unfold matchAt at h
  split at h
  · dsimp only at h
    split at h
    · cases h
    · split at h
      · split at h
        next k hk =>
          simp only [Option.some.injEq, Prod.mk.injEq] at h
          obtain ⟨h1, h2⟩ := h
          constructor
          · intro a ha
            rw [← h1] at ha
            have := (List.takeWhile_sublist (l := l.drop 9) (fun c => c ≠ '/')).subset ha
            exact List.drop_subset 9 l this
          · intro a ha
            rw [← h2] at ha
            have hd1 := List.drop_subset k _ ha
            have hd2 := List.drop_subset 4 _ hd1
            have hd3 := List.drop_subset _ _ hd2
            exact List.drop_subset 9 l hd3
        next => cases h
      · cases h
  · cases h

/-- The substitution scan keeps character lists newline free. -/
theorem noNL_subScanGo : ∀ (fuel : Nat) (l : List Char), '\n' ∉ l →
    '\n' ∉ subScanGo fuel l := by
  intro fuel
  induction fuel with
  | zero =>
    intro l h
    cases l with
    | nil => simp [subScanGo]
    | cons c rest => exact h
  | succ f ih =>
    intro l h
    cases l with
    | nil => simp [subScanGo]
    | cons c rest =>
      simp only [subScanGo]
      cases hm : matchAt (c :: rest) with
      | some p =>
        intro hmem
        rcases List.mem_append.mp hmem with hr | hr
        · unfold replText at hr
          simp only [List.mem_append] at hr
          rcases hr with (hr | hr) | hr
          · revert hr; decide
          · exact h ((matchAt_mem (c :: rest) p.1 p.2 (by rw [hm])).1 '\n' hr)
          · revert hr; decide
        · exact ih p.2 (fun hx => h ((matchAt_mem (c :: rest) p.1 p.2 (by rw [hm])).2 '\n' hx)) hr
      | none =>
        intro hmem
        rcases List.mem_cons.mp hmem with hr | hr
        · exact h (by rw [hr]; simp)
        · exact ih rest (fun hx => h (List.mem_cons_of_mem c hx)) hr

/-- The import path rewrite keeps a line newline free. -/
theorem noNL_transform (s : String) (h : noNL s) : noNL (transform_import_path s) := by
  intro hm
  unfold transform_import_path subScan at hm
  exact noNL_subScanGo s.data.length s.data h hm

/-- Every line the exclusion filter emits is an input line. -/
theorem filterGo_subset (exM exR : List String) :
    ∀ (l : List String) (sk : Option Int) (x : String),
      x ∈ filterGo exM exR sk l → x ∈ l := by
  intro l
  induction l with
  | nil => intro sk x hx; simp [filterGo] at hx
  | cons b t ih =>
    intro sk x hx
    cases sk with
    | some d =>
      unfold filterGo at hx
      dsimp only at hx
      split at hx
      · exact List.mem_cons_of_mem b (ih none x hx)
      · exact List.mem_cons_of_mem b (ih _ x hx)
    | none =>
      unfold filterGo at hx
      dsimp only at hx
      repeat' split at hx
      all_goals first
        | (rcases List.mem_cons.mp hx with h | h
           · subst h
             exact List.mem_cons_self ..
           · exact List.mem_cons_of_mem b (ih _ x h))
        | exact List.mem_cons_of_mem b (ih _ x hx)

/-- Every line the top-level exclusion filter emits is an input line. -/
theorem filter_excluded_subset (body exM exR : List String) (x : String)
    (hx : x ∈ filter_excluded_definitions body exM exR) : x ∈ body := by
  unfold filter_excluded_definitions at hx
  split at hx
  · exact hx
  · exact filterGo_subset exM exR body none x hx

/-- The inner scan emits and leaves only newline-free lines when the
opener, the collected content and the scanned tail are newline free. -/
theorem scanBlock_noNL (r : String) :
    ∀ (l content : List String) (opt : Nat) (out rem : List String),
      (∀ x ∈ l, noNL x) → (∀ x ∈ content, noNL x) → noNL r →
      scanBlock r l content opt = some (out, rem) →
      (∀ x ∈ out, noNL x) ∧ (∀ x ∈ rem, noNL x) := by
  intro l
  induction l with
  | nil => intro content opt out rem _ _ _ h; simp [scanBlock] at h
  | cons b rest ih =>
    intro content opt out rem hl hc hr h
    have hb : noNL b := hl b (by simp)
    have hrest : ∀ x ∈ rest, noNL x := fun y hy => hl y (List.mem_cons_of_mem b hy)
    unfold scanBlock at h
    dsimp only at h
    by_cases h1 : isDefStart (pyStrip b) = true
    · rw [if_pos h1] at h
      simp only [Option.some.injEq, Prod.mk.injEq] at h
      obtain ⟨ho, hrem⟩ := h
      subst ho
      subst hrem
      constructor
      · intro y hy
        simp only [List.mem_singleton] at hy
        subst hy
        exact noNL_collapseRpc r hr
      · exact hl
    · rw [if_neg h1] at h
      by_cases h2 : pyStrip b = "\x7d"
      · rw [if_pos h2] at h
        by_cases h3 : (decide (opt > 0) || content.any fun c => !(pyStrip c).isEmpty) = true
        · rw [if_pos h3] at h
          by_cases h4 : (content.any fun c => !(pyStrip c).isEmpty) = true
          · rw [if_pos h4] at h
            simp only [Option.some.injEq, Prod.mk.injEq] at h
            obtain ⟨ho, hrem⟩ := h
            subst ho
            subst hrem
            constructor
            · intro y hy
              rcases List.mem_cons.mp hy with hy | hy
              · subst hy
                exact hr
              · rcases List.mem_append.mp hy with hy | hy
                · exact hc y hy
                · simp only [List.mem_singleton] at hy
                  subst hy
                  exact hb
            · exact hrest
          · rw [if_neg h4] at h
            simp only [Option.some.injEq, Prod.mk.injEq] at h
            obtain ⟨ho, hrem⟩ := h
            subst ho
            subst hrem
            constructor
            · intro y hy
              simp only [List.mem_singleton] at hy
              subst hy
              exact noNL_collapseRpc r hr
            · exact hrest
        · rw [if_neg h3] at h
          simp only [Option.some.injEq, Prod.mk.injEq] at h
          obtain ⟨ho, hrem⟩ := h
          subst ho
          subst hrem
          constructor
          · intro y hy
            simp only [List.mem_singleton] at hy
            subst hy
            exact noNL_collapseRpc r hr
          · exact hl
      · rw [if_neg h2] at h
        by_cases h5 : (optionBlocks.any fun p => strHas (pyStrip b) p) = true
        · rw [if_pos h5] at h
          exact ih content (opt + 1) out rem hrest hc hr h
        · rw [if_neg h5] at h
          refine ih (content ++ [b]) opt out rem hrest ?_ hr h
          intro y hy
          rcases List.mem_append.mp hy with hy | hy
          · exact hc y hy
          · simp only [List.mem_singleton] at hy
            subst hy
            exact hb

/-- The annotation stripper emits only newline-free lines. -/
theorem removeOpts_noNL : ∀ (n : Nat) (l : List String), l.length ≤ n →
    (∀ x ∈ l, noNL x) → ∀ x ∈ remove_options_from_rpc_blocks l, noNL x := by
  intro n
  induction n with
  | zero =>
    intro l h1 _
    have h0 : l = [] := List.eq_nil_of_length_eq_zero (by omega)
    subst h0
    rw [removeOpts_nil]
    intro x hx
    cases hx
  | succ n ih =>
    intro l h1 hl
    cases l with
    | nil =>
      rw [removeOpts_nil]
      intro x hx
      cases hx
    | cons b rest =>
      by_cases hop : isRpcOpenLine b = true
      · cases hsc : scanBlock b rest [] 0 with
        | some p =>
          rw [removeOpts_cons_open_some b rest hop p.1 p.2 (by rw [hsc])]
          intro x hx
          have hscan := scanBlock_noNL b rest [] 0 p.1 p.2
            (fun y hy => hl y (List.mem_cons_of_mem b hy)) (by intro y hy; cases hy)
            (hl b (by simp)) (by rw [hsc])
          rcases List.mem_append.mp hx with hx | hx
          · exact hscan.1 x hx
          · have hlen := scanBlock_rem_le b rest [] 0 p.1 p.2 (by rw [hsc])
            simp only [List.length_cons] at h1
            exact ih p.2 (by omega) hscan.2 x hx
        | none =>
          rw [removeOpts_cons_open_none b rest hop hsc]
          intro x hx
          rcases List.mem_cons.mp hx with hx | hx
          · subst hx
            exact noNL_collapseRpc b (hl b (by simp))
          · simp only [List.length_cons] at h1
            exact ih rest (by omega) (fun y hy => hl y (List.mem_cons_of_mem b hy)) x hx
      · rw [removeOpts_cons_keep b rest (by simpa using hop)]
        intro x hx
        rcases List.mem_cons.mp hx with hx | hx
        · rw [hx]
          exact hl b (by simp)
        · simp only [List.length_cons] at h1
          exact ih rest (by omega) (fun y hy => hl y (List.mem_cons_of_mem b hy)) x hx

/-- Base equation of the empty-block collapser. -/
theorem cleanup_nil : cleanup_empty_rpc_blocks [] = [] := by
  rw [cleanup_empty_rpc_blocks]

/-- Step equation of the collapser on a line that is not an RPC opener. -/
theorem cleanup_cons_keep (line : String) (rest : List String)
    (h : isRpcOpenLine line = false) :
    cleanup_empty_rpc_blocks (line :: rest) = line :: cleanup_empty_rpc_blocks rest := by
  rw [cleanup_empty_rpc_blocks]
  simp [h]

/-- The empty-block collapser emits only newline-free lines. -/
theorem cleanup_noNL : ∀ (n : Nat) (l : List String), l.length ≤ n →
    (∀ x ∈ l, noNL x) → ∀ x ∈ cleanup_empty_rpc_blocks l, noNL x := by
  intro n
  induction n with
  | zero =>
    intro l h1 _
    have h0 : l = [] := List.eq_nil_of_length_eq_zero (by omega)
    subst h0
    rw [cleanup_nil]
    intro x hx
    cases hx
  | succ n ih =>
    intro l h1 hl
    cases l with
    | nil =>
      rw [cleanup_nil]
      intro x hx
      cases hx
    | cons line rest =>
      simp only [List.length_cons] at h1
      have htail : ∀ x ∈ rest, noNL x := fun y hy => hl y (List.mem_cons_of_mem line hy)
      rw [cleanup_empty_rpc_blocks]
      split
      · split
        next b rest2 hdw =>
          split
          · intro x hx
            rcases List.mem_cons.mp hx with hx | hx
            · subst hx
              exact noNL_collapseRpc line (hl line (by simp))
            · have hsub : rest2.length < rest.length + 1 := by
                have := List.Sublist.length_le (List.dropWhile_sublist (l := rest)
                  (fun s => blankLine s))
                rw [hdw] at this
                simp only [List.length_cons] at this
                omega
              have hmem2 : ∀ y ∈ rest2, noNL y := by
                intro y hy
                have h2 : y ∈ rest.dropWhile (fun s => blankLine s) := by
                  rw [hdw]
                  exact List.mem_cons_of_mem b hy
                exact htail y ((List.dropWhile_sublist _).subset h2)
              exact ih rest2 (by omega) hmem2 x hx
          · intro x hx
            rcases List.mem_cons.mp hx with hx | hx
            · rw [hx]
              exact hl line (by simp)
            · exact ih rest (by omega) htail x hx
        next hdw =>
          intro x hx
          rcases List.mem_cons.mp hx with hx | hx
          · rw [hx]
            exact hl line (by simp)
          · exact ih rest (by omega) htail x hx
      · intro x hx
        rcases List.mem_cons.mp hx with hx | hx
        · rw [hx]
          exact hl line (by simp)
        · exact ih rest (by omega) htail x hx

/-- The per-document body pipeline emits only newline-free lines. -/
theorem processBody_noNL (exM exR : List String) (body : List String)
    (h : ∀ x ∈ body, noNL x) : ∀ x ∈ processBody exM exR body, noNL x := by
  unfold processBody
  dsimp only
  intro x hx
  have hb1 : ∀ y ∈ body.dropWhile (fun l => blankLine l), noNL y :=
    fun y hy => h y ((List.dropWhile_sublist _).subset hy)
  have hb2 : ∀ y ∈ ((body.dropWhile (fun l => blankLine l)).reverse.dropWhile
      (fun l => blankLine l)).reverse, noNL y := by
    intro y hy
    rw [List.mem_reverse] at hy
    have := (List.dropWhile_sublist _).subset hy
    rw [List.mem_reverse] at this
    exact hb1 y this
  have hb3 : ∀ y ∈ (((body.dropWhile (fun l => blankLine l)).reverse.dropWhile
      (fun l => blankLine l)).reverse.filter (fun l =>
        !(skipLineStarts.any (fun p => strStarts (pyStrip l) p)) &&
        !(skipLineHas.any (fun p => strHas (pyStrip l) p)))), noNL y :=
    fun y hy => hb2 y (List.mem_of_mem_filter hy)
  have hb4 : ∀ y ∈ (if !exM.isEmpty || !exR.isEmpty then
      filter_excluded_definitions (((body.dropWhile (fun l => blankLine l)).reverse.dropWhile
        (fun l => blankLine l)).reverse.filter (fun l =>
          !(skipLineStarts.any (fun p => strStarts (pyStrip l) p)) &&
          !(skipLineHas.any (fun p => strHas (pyStrip l) p)))) exM exR
      else (((body.dropWhile (fun l => blankLine l)).reverse.dropWhile
        (fun l => blankLine l)).reverse.filter (fun l =>
          !(skipLineStarts.any (fun p => strStarts (pyStrip l) p)) &&
          !(skipLineHas.any (fun p => strHas (pyStrip l) p))))), noNL y := by
    intro y hy
    split at hy
    · exact hb3 y (filter_excluded_subset _ exM exR y hy)
    · exact hb3 y hy
  have hb5 := removeOpts_noNL _ _ (le_refl _) hb4
  exact cleanup_noNL _ _ (le_refl _) hb5 x hx

/-- The empty line is newline free. -/
theorem noNL_empty : noNL "" := by
  intro h
  simp [String.data] at h

/-- Set-style import insertion emits only newline-free lines. -/
theorem addImport_noNL (cm : Option String) (acc : List String) (imp : String)
    (hacc : ∀ x ∈ acc, noNL x) (himp : noNL imp) : ∀ x ∈ addImport cm acc imp, noNL x := by
  unfold addImport
  dsimp only
  split
  · exact hacc
  · split
    · exact hacc
    · intro x hx
      rcases List.mem_append.mp hx with h | h
      · exact hacc x h
      · simp only [List.mem_singleton] at h
        rw [h]
        exact noNL_transform _ (noNL_pyStrip _ himp)

/-- The collected import set contains only newline-free lines. -/
theorem collectImports_noNL (parsed : List PSt) (cm : Option String)
    (hp : ∀ p ∈ parsed, pstNoNL p) : ∀ x ∈ collectImports parsed cm, noNL x := by
  unfold collectImports
  suffices hgen : ∀ (ps : List PSt) (acc : List String), (∀ p ∈ ps, pstNoNL p) →
      (∀ x ∈ acc, noNL x) →
      ∀ x ∈ (ps.foldl (fun acc p => p.imports.foldl (addImport cm) acc) acc), noNL x by
    intro x hx
    exact hgen parsed [] hp (by intro y hy; cases hy) x hx
  intro ps
  induction ps with
  | nil => intro acc _ hacc x hx; exact hacc x hx
  | cons p t ih =>
    intro acc hps hacc x hx
    refine ih (p.imports.foldl (addImport cm) acc) (fun q hq => hps q (by simp [hq])) ?_ x hx
    have hpim : ∀ y ∈ p.imports, noNL y := (hps p (by simp)).2.2.2.2.1
    clear hx
    revert hacc hpim
    generalize p.imports = imps
    intro hacc hpim
    induction imps generalizing acc with
    | nil => exact hacc
    | cons i it ihi =>
      simp only [List.foldl_cons]
      exact ihi (addImport cm acc i)
        (addImport_noNL cm acc i hacc (hpim i (by simp)))
        (fun y hy => hpim y (by simp [hy]))

/-- The sorted import block contains only newline-free lines. -/
theorem sortedImports_noNL (parsed : List PSt) (cm : Option String)
    (hp : ∀ p ∈ parsed, pstNoNL p) : ∀ x ∈ sortedImports parsed cm, noNL x := by
  intro x hx
  unfold sortedImports at hx
  have := (List.perm_insertionSort (fun x y => importKeyLe x y = true)
    (collectImports parsed cm)).mem_iff.mp hx
  exact collectImports_noNL parsed cm hp x this

/-- The merged header contains only newline-free lines. -/
theorem mergedHeader_noNL (p0 : PSt) (h : pstNoNL p0) : ∀ x ∈ mergedHeader p0, noNL x := by
  unfold mergedHeader
  intro x hx
  rcases List.mem_append.mp hx with hx | hx
  rotate_left
  · cases hpl : p0.packageLine with
    | none => rw [hpl] at hx; cases hx
    | some s =>
      rw [hpl] at hx
      rcases List.mem_cons.mp hx with hx | hx
      · rw [hx]; exact h.2.2.2.1 s hpl
      · simp only [List.mem_singleton] at hx; rw [hx]; exact noNL_empty
  rcases List.mem_append.mp hx with hx | hx
  rotate_left
  · cases hjp : p0.javaPackage with
    | none => rw [hjp] at hx; cases hx
    | some s =>
      rw [hjp] at hx
      rcases List.mem_cons.mp hx with hx | hx
      · rw [hx]; exact h.2.2.1 s hjp
      · simp only [List.mem_singleton] at hx; rw [hx]; exact noNL_empty
  rcases List.mem_append.mp hx with hx | hx
  · split at hx
    · cases hx
    · rcases List.mem_append.mp hx with hx | hx
      · exact h.1 x hx
      · simp only [List.mem_singleton] at hx; rw [hx]; exact noNL_empty
  · cases hsl : p0.syntaxLine with
    | none => rw [hsl] at hx; cases hx
    | some s =>
      rw [hsl] at hx
      rcases List.mem_cons.mp hx with hx | hx
      · rw [hx]; exact h.2.1 s hsl
      · simp only [List.mem_singleton] at hx; rw [hx]; exact noNL_empty

/-- The concatenated processed bodies contain only newline-free lines. -/
theorem mergedBodies_noNL (exM exR : List String) (parsed : List PSt)
    (hp : ∀ p ∈ parsed, pstNoNL p) : ∀ x ∈ mergedBodies exM exR parsed, noNL x := by
  unfold mergedBodies
  suffices hgen : ∀ (l : List (Nat × PSt)) (acc : List String),
      (∀ ip ∈ l, pstNoNL ip.2) → (∀ x ∈ acc, noNL x) →
      ∀ x ∈ (l.foldl (fun acc ip =>
        if ip.2.body.isEmpty then acc
        else
          let bl := processBody exM exR ip.2.body
          if bl.isEmpty then acc
          else acc ++ (if ip.1 > 0 then [""] else []) ++ bl) acc), noNL x by
    intro x hx
    refine hgen parsed.enum [] ?_ (by intro y hy; cases hy) x hx
    intro ip hip
    have h2 : ip.2 ∈ parsed := by
      have hm := List.mem_map_of_mem Prod.snd hip
      rwa [List.enum_map_snd] at hm
    exact hp ip.2 h2
  intro l
  induction l with
  | nil => intro acc _ hacc x hx; exact hacc x hx
  | cons ip t ih =>
    intro acc hl hacc x hx
    simp only [List.foldl_cons] at hx
    refine ih _ (fun q hq => hl q (by simp [hq])) ?_ x hx
    intro y hy
    split at hy
    · exact hacc y hy
    · try dsimp only at hy
      split at hy
      · exact hacc y hy
      · rcases List.mem_append.mp hy with hy | hy
        · rcases List.mem_append.mp hy with hy | hy
          · exact hacc y hy
          · split at hy
            · simp only [List.mem_singleton] at hy
              rw [hy]
              exact noNL_empty
            · cases hy
        · exact processBody_noNL exM exR ip.2.body ((hl ip (by simp)).2.2.2.2.2) y hy

/-- The merged line list before trimming contains only newline-free lines. -/
theorem mergedLines_noNL (parsed : List PSt) (cm : Option String) (exM exR : List String)
    (hp : ∀ p ∈ parsed, pstNoNL p) :
    ∀ x ∈ mergedLines parsed cm exM exR, noNL x := by
  unfold mergedLines
  cases parsed with
  | nil => intro x hx; cases hx
  | cons p0 prest =>
    intro x hx
    rcases List.mem_append.mp hx with hx | hx
    · rcases List.mem_append.mp hx with hx | hx
      · exact mergedHeader_noNL p0 (hp p0 (by simp)) x hx
      · dsimp only at hx
        split at hx
        · cases hx
        · rcases List.mem_append.mp hx with hx | hx
          · exact sortedImports_noNL (p0 :: prest) cm hp x hx
          · simp only [List.mem_singleton] at hx
            rw [hx]
            exact noNL_empty
    · exact mergedBodies_noNL exM exR (p0 :: prest) hp x hx

/-- The head of a dropWhile result falsifies the predicate. -/
theorem dropWhile_head_false {α : Type} (p : α → Bool) :
    ∀ (l : List α) (y : α) (ys : List α), l.dropWhile p = y :: ys → p y = false := by
  intro l
  induction l with
  | nil => intro y ys h; cases h
  | cons a t ih =>
    intro y ys h
    rw [List.dropWhile_cons] at h
    split at h
    · exact ih y ys h
    · cases h
      simp_all

/-- Trimming keeps only input lines. -/
theorem trimTrailingBlanks_subset (ls : List String) (x : String)
    (hx : x ∈ trimTrailingBlanks ls) : x ∈ ls := by
  unfold trimTrailingBlanks at hx
  rw [List.mem_reverse] at hx
  have := (List.dropWhile_sublist (l := ls.reverse) (fun l => blankLine l)).subset hx
  rwa [List.mem_reverse] at this

/-- Last element of a reversed list. -/
theorem getLastD_reverse {α : Type} (l : List α) (d : α) :
    (l.reverse).getLastD d = l.headD d := by
  cases l with
  | nil => rfl
  | cons a t =>
    simp only [List.reverse_cons, List.headD_cons]
    rw [List.getLastD_concat]

/-- A nonempty trim result ends in a non-blank line. -/
theorem trimTrailingBlanks_last (ls : List String) (h : trimTrailingBlanks ls ≠ []) :
    blankLine ((trimTrailingBlanks ls).getLastD "") = false := by
  unfold trimTrailingBlanks at h ⊢
  cases hdw : ls.reverse.dropWhile (fun l => blankLine l) with
  | nil => rw [hdw] at h; simp at h
  | cons y ys =>
    rw [getLastD_reverse]
    simp only [List.headD_cons]
    exact dropWhile_head_false _ ls.reverse y ys hdw

/-- Splitting a newline-free block followed by a newline peels one line. -/
theorem splitLines_append_nl : ∀ (l : List Char), '\n' ∉ l →
    ∀ (rest : List Char), splitLines (l ++ '\n' :: rest) = l :: splitLines rest := by
  intro l
  induction l with
  | nil =>
    intro _ rest
    simp [splitLines]
  | cons a t ih =>
    intro h rest
    have ha : ¬ a = '\n' := by
      intro hc
      refine h ?_
      rw [← hc]
      exact List.mem_cons_self ..
    simp only [List.cons_append]
    conv_lhs => rw [splitLines]
    rw [ih (fun hm => h (List.mem_cons_of_mem a hm)) rest, if_neg ha]

/-- Splitting the newline-join of newline-free lines plus a final newline
recovers the lines followed by one empty part. -/
theorem joinNL_split : ∀ (ls : List (List Char)), ls ≠ [] → (∀ l ∈ ls, '\n' ∉ l) →
    splitLines (joinNL ls ++ ['\n']) = ls ++ [[]] := by
  intro ls
  induction ls with
  | nil => intro h _; exact absurd rfl h
  | cons x t ih =>
    intro _ hnl
    cases t with
    | nil =>
      simp only [joinNL]
      have := splitLines_append_nl x (hnl x (by simp)) []
      simpa [splitLines] using this
    | cons y t2 =>
      simp only [joinNL]
      have hassoc : (x ++ '\n' :: joinNL (y :: t2)) ++ ['\n'] =
          x ++ '\n' :: (joinNL (y :: t2) ++ ['\n']) := by
        simp
      rw [hassoc]
      rw [splitLines_append_nl x (hnl x (by simp)) _]
      rw [ih (by simp) (fun l hl => hnl l (by simp [hl]))]
      simp

/-- Last data of a mapped nonempty list. -/
theorem getLastD_map_data : ∀ (ls : List String), ls ≠ [] →
    (ls.map String.data).getLastD ['x'] = (ls.getLastD "").data := by
  intro ls
  induction ls with
  | nil => intro h; exact absurd rfl h
  | cons a t ih =>
    intro _
    cases t with
    | nil => rfl
    | cons b t2 =>
      simp only [List.map_cons, List.getLastD_cons]
      have := ih (by simp)
      simpa using this

/-- Formalisation of the claimed output shape: the text splits into at
least two newline-separated parts, the final part is empty (the text ends
with exactly one terminator: a second-to-last empty or blank part would
falsify the next conjunct), and the part before the final terminator is
not blank (no trailing blank line). -/
def wellTerminated (r : String) : Bool :=
  let parts := splitLines r.data
  decide (2 ≤ parts.length) && decide (parts.getLastD ['x'] = []) &&
    !((pyStripL (parts.dropLast.getLastD ['x'])).isEmpty)

/-- C9 counterexample: the non-empty input list consisting of one empty
document merges to the single terminator, whose only line before the
terminator is blank, so the output as claimed fails: it is a trailing
blank line. -/
theorem c9_counterexample :
    merge_proto_files [""] none [] [] = "\n" ∧
    wellTerminated (merge_proto_files [""] none [] []) = false := by
  constructor
  · rfl
  · decide

/-- C9 (amended): for every non-empty input list the merged text either
is exactly one line terminator (everything was filtered away or empty) or
ends with exactly one terminator preceded by a non-blank final line and no
trailing blank lines. -/
theorem c9_output_termination (contents : List String) (cm : Option String)
    (exM exR : List String) (h : contents ≠ []) :
    merge_proto_files contents cm exM exR = "\n" ∨
    wellTerminated (merge_proto_files contents cm exM exR) = true := by
  obtain ⟨c0, crest, rfl⟩ := List.exists_cons_of_ne_nil h
  show merge_proto_files (c0 :: crest) cm exM exR = "\n" ∨ _
  unfold merge_proto_files
  dsimp only
  cases hm : trimTrailingBlanks
      (mergedLines ((c0 :: crest).map parse_proto_file) cm exM exR) with
  | nil =>
    left
    rfl
  | cons m ms =>
    right
    have hparsedNoNL : ∀ p ∈ (c0 :: crest).map parse_proto_file, pstNoNL p := by
      intro p hp2
      rcases List.mem_map.mp hp2 with ⟨c, _, rfl⟩
      exact parse_proto_file_noNL c
    have hnoNL : ∀ x ∈ (m :: ms), noNL x := by
      intro x hx
      rw [← hm] at hx
      exact mergedLines_noNL _ cm exM exR hparsedNoNL x
        (trimTrailingBlanks_subset _ x hx)
    have hlast : blankLine ((m :: ms).getLastD "") = false := by
      rw [← hm]
      apply trimTrailingBlanks_last
      rw [hm]
      simp
    have hsplit : splitLines (joinNL ((m :: ms).map String.data) ++ ['\n']) =
        ((m :: ms).map String.data) ++ [[]] := by
      apply joinNL_split
      · simp
      · intro l hl
        rcases List.mem_map.mp hl with ⟨s, hs, rfl⟩
        exact hnoNL s hs
    unfold wellTerminated
    dsimp only
    rw [show (List.map (fun s : String => s.data) (m :: ms)) =
        List.map String.data (m :: ms) from rfl]
    rw [hsplit]
    simp only [Bool.and_eq_true, decide_eq_true_eq, Bool.not_eq_true']
    refine ⟨⟨?_, ?_⟩, ?_⟩
    · simp only [List.length_append, List.length_map, List.length_cons]
      omega
    · rw [List.getLastD_concat]
    · rw [List.dropLast_concat]
      rw [getLastD_map_data (m :: ms) (by simp)]
      have : blankLine ((m :: ms).getLastD "") =
          (pyStripL ((m :: ms).getLastD "").data).isEmpty := rfl
      rw [this] at hlast
      exact hlast

/-- Witness for the amended C9 at a concrete one-document input. -/
theorem c9_output_termination_witness :
    merge_proto_files ["foo"] none [] [] = "\n" ∨
    wellTerminated (merge_proto_files ["foo"] none [] []) = true :=
  c9_output_termination ["foo"] none [] [] (by decide)

/-- C8: totality of the merge entry point: for every list of raw document
texts, every module identifier and every pair of exclusion lists,
merge_proto_files evaluates to a string.  The embedded functions are all
total Lean functions (the loop jumps of the Python code always advance, as
the termination arguments of scanBlock, remove_options_from_rpc_blocks,
cleanup_empty_rpc_blocks and the substitution scan show), so no input can
raise. -/
theorem c8_merge_total (protoContents : List String) (currentModule : Option String)
    (excludeMessages excludeRpcs : List String) :
    ∃ s : String,
      merge_proto_files protoContents currentModule excludeMessages excludeRpcs = s :=
  ⟨merge_proto_files protoContents currentModule excludeMessages excludeRpcs, rfl⟩
